import Mathlib

/-!
A verification development for the sylt language pipeline
(parser / compiler / value model), shallowly embedded in Lean 4.

Each definition is translated from the corresponding Rust source:
  * `Value`, equality, hashing, `From<&Type> for Value`
      from `sylt-common/src/value.rs`
  * the compiler (`Compiler::constant`, `Compiler::expression`,
    `Compiler::statement`, `Compiler::compile`, the `compile_error!` macro)
      from `src/syncomp.rs`
  * the expression parser (`parse_precedence`, `prefix`, `infix`,
    `grouping_or_tuple`, `set_or_dict`, `list`, `blob`, `value`, `unary`)
      from `sylt-parser/src/expression.rs`

Machine integers are modelled as `Int`/`Nat`.  `f64` is modelled by
an inductive `F64` that distinguishes finite values (identified by
their bit pattern) from the non-finite values, because the source
only observes floats through `==`, `is_finite` and `to_bits`.
Rust panics (`unwrap`, `unimplemented!`, failed `assert!`, indexing
a missing key) are modelled by `Option.none`.
-/

set_option maxHeartbeats 1000000
set_option linter.dupNamespace false
set_option linter.unnecessarySeqFocus false
set_option linter.unreachableTactic false
set_option linter.unusedTactic false
set_option linter.unusedVariables false

/-- Source span, as in `syncomp.rs` (`Span { line }`). -/
structure Span where
  line : Nat
deriving DecidableEq, Repr

abbrev I64 := Int
abbrev StrT := String
abbrev BoolT := Bool

/-- Model of `f64`: a finite float is identified by its bit pattern;
the non-finite floats are `inf`, `neginf` and `nan`.  This captures
exactly what the source observes about floats: `==`, `is_finite`
and `to_bits`.  (The `0.0 == -0.0` identification of IEEE floats
is not modelled; no claim depends on it.) -/
inductive F64 where
  | finite (bits : I64)
  | inf
  | neginf
  | nan
deriving DecidableEq, Repr

/-- `f64::is_finite`. -/
def F64.is_finite : F64 → Bool
  | .finite _ => true
  | _ => false

/-- `f64::to_bits`; only ever used after `assert!(a.is_finite())`. -/
def F64.to_bits : F64 → I64
  | .finite b => b
  | .inf => 9218868437227405312
  | .neginf => -4503599627370496
  | .nan => 9221120237041090560

/-- `f64 == f64`.  NaN is not equal to anything, including itself. -/
def F64.feq : F64 → F64 → Bool
  | .finite a, .finite b => a == b
  | .inf, .inf => true
  | .neginf, .neginf => true
  | _, _ => false

/-- The bit pattern of `1.0f64`. -/
def F64.one : F64 := .finite 4607182418800017408

/-- Model of `sylt_common::Type` (`ty.rs` is not among the provided
sources; the variants and payloads are read off from the exhaustive
`match` in `impl From<&Type> for Value` in `sylt-common/src/value.rs`,
which names every variant). -/
inductive Ty where
  | Field (s : StrT)
  | Void
  | Blob (b : Nat)
  | Instance (b : Nat)
  | Tuple (fields : List Ty)
  | Union (xs : List Ty)
  | List (t : Ty)
  | Set (t : Ty)
  | Dict (k v : Ty)
  | Iter (t : Ty)
  | Unknown
  | Invalid
  | Int
  | Float
  | Bool
  | String
  | Function (args : List Ty) (ret : Ty)
  | ExternFunction (x : Nat)
  | Ty

mutual
/-- Model of `sylt_common::Value` (`sylt-common/src/value.rs`).
Shared mutable containers (`Rc<RefCell<..>>`) are modelled by their
contents; `HashSet`/`HashMap` by their element list in iteration
order; the opaque closure inside `Iter` and the upvalue cells inside
`Function` are elided (no claim observes them — equality and hashing
treat those variants as opaque). -/
inductive Value where
  | Field (s : StrT)
  | Ty (t : Ty)
  | Blob (b : Nat)
  | Instance (b : Nat) (fields : SVList)
  | Tuple (xs : VList)
  | List (xs : VList)
  | Set (xs : VList)
  | Dict (xs : VPList)
  | Iter (t : Ty)
  | Union (xs : VList)
  | Float (f : F64)
  | Int (i : I64)
  | Bool (b : BoolT)
  | String (s : StrT)
  | Function (t : Ty) (block : Nat)
  | ExternFunction (x : Nat)
  | Unknown
  | Nil

/-- A list of `Value`s (`Vec<Value>` / `HashSet<Value>` contents). -/
inductive VList where
  | nil
  | cons (v : Value) (tl : VList)

/-- A list of key/value pairs (`HashMap<Value, Value>` contents). -/
inductive VPList where
  | nil
  | cons (k v : Value) (tl : VPList)

/-- A list of string/value pairs (`HashMap<String, Value>` contents). -/
inductive SVList where
  | nil
  | cons (name : StrT) (v : Value) (tl : SVList)
end

/-- Length of a `VList` (`Vec::len` / `HashSet::len`). -/
def VList.length : VList → Nat
  | .nil => 0
  | .cons _ tl => 1 + tl.length

/-- Length of a `VPList` (`HashMap::len`). -/
def VPList.length : VPList → Nat
  | .nil => 0
  | .cons _ _ tl => 1 + tl.length

mutual
/-- `impl PartialEq<Value> for Value` (`value.rs` lines 106-124),
arm for arm:  primitives pointwise, `Tuple`/`List` elementwise,
`Set`/`Dict` via the `HashSet`/`HashMap` equality formulas
(equal length and every left element/pair found on the right),
the `Union` or-pattern arm, `Nil == Nil`, and the default `false`. -/
def veq : Value → Value → Bool
  | .Float a, .Float b => F64.feq a b
  | .Int a, .Int b => a == b
  | .Bool a, .Bool b => a == b
  | .String a, .String b => a == b
  | .Tuple a, .Tuple b => vlisteq a b
  | .List a, .List b => vlisteq a b
  | .Set a, .Set b => a.length == b.length && vsetSub a b
  | .Dict a, .Dict b => a.length == b.length && vdictSub a b
  | .Union a, b => vany a b
  | a, .Union b => vany b a
  | .Nil, .Nil => true
  | _, _ => false
termination_by a b => sizeOf a + sizeOf b
decreasing_by all_goals (simp_wf <;> omega)

/-- `a.len() == b.len() && a.iter().zip(b.iter()).all(|(a, b)| a == b)`
(the `Tuple` arm; also `Vec<Value>` equality for the `List` arm). -/
def vlisteq : VList → VList → Bool
  | .nil, .nil => true
  | .cons a as, .cons b bs => veq a b && vlisteq as bs
  | _, _ => false
termination_by a b => sizeOf a + sizeOf b
decreasing_by all_goals (simp_wf <;> omega)

/-- `HashSet` equality, left-to-right half:
`self.iter().all(|key| other.contains(key))`. -/
def vsetSub : VList → VList → Bool
  | .nil, _ => true
  | .cons a as, b => vmem b a && vsetSub as b
termination_by a b => sizeOf a + sizeOf b
decreasing_by all_goals (simp_wf <;> omega)

/-- `other.contains(key)`: some stored element equals the probe
(the probe is on the left of `==`, as in `hashbrown`). -/
def vmem : VList → Value → Bool
  | .nil, _ => false
  | .cons b bs, a => veq a b || vmem bs a
termination_by a b => sizeOf a + sizeOf b
decreasing_by all_goals (simp_wf <;> omega)

/-- `HashMap` equality, left-to-right half:
`self.iter().all(|(key, value)| other.get(key).map_or(false, |v| *value == *v))`. -/
def vdictSub : VPList → VPList → Bool
  | .nil, _ => true
  | .cons k v tl, b => vdictGetEq b k v && vdictSub tl b
termination_by a b => sizeOf a + sizeOf b
decreasing_by all_goals (simp_wf <;> omega)

/-- `other.get(key).map_or(false, |v| *value == *v)`: `HashMap::get`
finds the first stored pair whose key equals the probe key, and the
stored value is then compared with the probe value. -/
def vdictGetEq : VPList → Value → Value → Bool
  | .nil, _, _ => false
  | .cons k v tl, probe, pv =>
    if veq probe k then veq pv v else vdictGetEq tl probe pv
termination_by a b c => sizeOf a + sizeOf b + sizeOf c
decreasing_by all_goals (simp_wf <;> omega)

/-- `a.iter().any(|x| x == b)` (the `Union` arm). -/
def vany : VList → Value → Bool
  | .nil, _ => false
  | .cons x xs, b => veq x b || vany xs b
termination_by a b => sizeOf a + sizeOf b
decreasing_by all_goals (simp_wf <;> omega)
end

set_option linter.unnecessarySeqFocus false

/-- One event written to a `Hasher` state. -/
inductive HData where
  | floatBits (i : I64)
  | intVal (i : I64)
  | boolVal (b : BoolT)
  | strVal (s : StrT)
  | lenPrefix (n : Nat)
  | i8Val (i : I64)
deriving DecidableEq, Repr

mutual
/-- `impl Hash for Value` (`value.rs` lines 128-145), arm for arm.
The result is the sequence of events written to the hasher, or
`none` when the `assert!(a.is_finite())` in the `Float` arm fails
(a Rust panic).  `Tuple` hashes as `Vec<Value>` does: a length
prefix followed by each element's events.  Every other variant
falls into the `_ => {}` arm and writes nothing. -/
def hashValue : Value → Option (List HData)
  | .Float a => if a.is_finite then some [.floatBits a.to_bits] else none
  | .Int a => some [.intVal a]
  | .Bool a => some [.boolVal a]
  | .String a => some [.strVal a]
  | .Tuple a =>
    match hashVList a with
    | some l => some (.lenPrefix a.length :: l)
    | none => none
  | .Nil => some [.i8Val 0]
  | _ => some []
termination_by v => sizeOf v

/-- Hash events of the elements of a `Vec<Value>`, left to right. -/
def hashVList : VList → Option (List HData)
  | .nil => some []
  | .cons v tl =>
    match hashValue v, hashVList tl with
    | some a, some b => some (a ++ b)
    | _, _ => none
termination_by l => sizeOf l
end

mutual
/-- `v` is a non-finite float, or contains one through `Tuple`
nesting (the only container whose `Hash` arm descends into its
elements). -/
def tupleContainsNonFinite : Value → Bool
  | .Float a => !a.is_finite
  | .Tuple l => vlistContainsNonFinite l
  | _ => false
termination_by v => sizeOf v

/-- Some element of the list satisfies `tupleContainsNonFinite`. -/
def vlistContainsNonFinite : VList → Bool
  | .nil => false
  | .cons v tl => tupleContainsNonFinite v || vlistContainsNonFinite tl
termination_by l => sizeOf l
end

mutual
/-- `impl From<&Type> for Value` (`value.rs` lines 35-70), arm for
arm: the representative "default" value of a type shape. -/
def Value.fromType : Ty → Value
  | .Field s => .Field s
  | .Void => .Nil
  | .Blob b => .Blob b
  | .Instance b => .Instance b .nil
  | .Tuple fields => .Tuple (fromTypeList fields)
  | .Union v => .Union (fromTypeList v)
  | .List v => .List (.cons (Value.fromType v) .nil)
  | .Set v => .Set (.cons (Value.fromType v) .nil)
  | .Dict k v => .Dict (.cons (Value.fromType k) (Value.fromType v) .nil)
  | .Iter v => .Iter v
  | .Unknown => .Unknown
  | .Invalid => .Unknown
  | .Int => .Int 1
  | .Float => .Float F64.one
  | .Bool => .Bool true
  | .String => .String ""
  | .Function a r => .Function (.Function a r) 0
  | .ExternFunction x => .ExternFunction x
  | .Ty => Value.Ty Ty.Void
termination_by t => sizeOf t

/-- `fields.iter().map(Value::from).collect()`. -/
def fromTypeList : List Ty → VList
  | [] => .nil
  | t :: ts => .cons (Value.fromType t) (fromTypeList ts)
termination_by l => sizeOf l
end

/-- `syntree::Identifier` (`{ span, name }`). -/
structure Identifier where
  span : Span
  name : StrT
deriving DecidableEq, Repr

/-- `syntree::VarKind`.  Modelled from the spec: the declaration-kind
payload of a `Definition`; the compiler's `define` stub ignores it. -/
inductive VarKind where
  | Const
  | Mutable
deriving DecidableEq, Repr

/-- The `kind` payload of an `Assignment` statement.  Modelled from
the spec: the compiler binds it and never reads it. -/
inductive AssignOpKind where
  | Plain
deriving DecidableEq, Repr

/-- Modelled from the spec: resolved primitive runtime types; only
`Void` is observable in the provided sources (the parser's implicit
`-> Void` return type). -/
inductive RuntimeType where
  | Void
deriving DecidableEq, Repr

/-- The parser-side type annotation (`sylt-parser`'s `Type`, built by
`parse_type`): a span plus either a resolved runtime type or a name.
Modelled from the spec except for the `Resolved(Void)` shape, which
appears verbatim in `expression.rs`. -/
inductive PTypeKind where
  | Resolved (rt : RuntimeType)
  | Named (s : StrT)
deriving DecidableEq, Repr

/-- A parsed type annotation with its span. -/
structure PType where
  span : Span
  kind : PTypeKind
deriving DecidableEq, Repr

mutual
/-- An AST expression: a span plus an `ExpressionKind`
(`Expression { span, kind }` of the parser / `syntree`). -/
inductive Expression where
  | mk (span : Span) (kind : ExpressionKind)

/-- `ExpressionKind`: the kinds constructed in
`sylt-parser/src/expression.rs` and consumed in `syncomp.rs`. -/
inductive ExpressionKind where
  | Get (a : Assignable)
  | Add (a b : Expression)
  | Sub (a b : Expression)
  | Mul (a b : Expression)
  | Div (a b : Expression)
  | Eq (a b : Expression)
  | Neq (a b : Expression)
  | Gt (a b : Expression)
  | Gteq (a b : Expression)
  | Lt (a b : Expression)
  | Lteq (a b : Expression)
  | AssertEq (a b : Expression)
  | Neg (a : Expression)
  | In (a b : Expression)
  | And (a b : Expression)
  | Or (a b : Expression)
  | Not (a : Expression)
  | Tuple (xs : ExprList)
  | List (xs : ExprList)
  | Set (xs : ExprList)
  | Dict (xs : ExprList)
  | Float (f : F64)
  | Int (i : I64)
  | Bool (b : BoolT)
  | Str (s : StrT)
  | Nil
  | Function (name : StrT) (params : List (Identifier × PType))
      (ret : PType) (body : Statement)
  | Instance (blob : Assignable) (fields : FieldList)

/-- A list of expressions (`Vec<Expression>`). -/
inductive ExprList where
  | nil
  | cons (e : Expression) (tl : ExprList)

/-- Blob-initializer fields (`Vec<(String, Expression)>`). -/
inductive FieldList where
  | nil
  | cons (name : StrT) (e : Expression) (tl : FieldList)

/-- `Assignable { span, kind }`. -/
inductive Assignable where
  | mk (span : Span) (kind : AssignableKind)

/-- `AssignableKind`: `Read`, `Call`, `Access`, `Index`. -/
inductive AssignableKind where
  | Read (i : Identifier)
  | Call (f : Assignable) (args : ExprList)
  | Access (a b : Assignable)
  | Index (a : Assignable) (e : Expression)

/-- `Statement { span, kind }`. -/
inductive Statement where
  | mk (span : Span) (kind : StatementKind)

/-- `StatementKind`: the kinds matched in `Compiler::statement` and
`Compiler::extract_globals`, plus the block statement used as a
function body. -/
inductive StatementKind where
  | EmptyStatement
  | Print (value : Expression)
  | Definition (ident : Identifier) (kind : VarKind) (ty : PType)
      (value : Expression)
  | Assignment (kind : AssignOpKind) (target : Assignable)
      (value : Expression)
  | StatementExpression (value : Expression)
  | Use (file : Identifier)
  | Block (statements : StmtList)

/-- A list of statements (`Vec<Statement>`). -/
inductive StmtList where
  | nil
  | cons (s : Statement) (tl : StmtList)
end

/-- The span of an expression. -/
def Expression.span : Expression → Span
  | .mk sp _ => sp

/-- The kind of an expression. -/
def Expression.kind : Expression → ExpressionKind
  | .mk _ k => k

/-- The span of an assignable. -/
def Assignable.span : Assignable → Span
  | .mk sp _ => sp

/-- The kind of an assignable. -/
def Assignable.kind : Assignable → AssignableKind
  | .mk _ k => k

/-- `Vec::len` for `ExprList`. -/
def ExprList.length : ExprList → Nat
  | .nil => 0
  | .cons _ tl => 1 + tl.length

/-- `sylt_common::error::Error`, restricted to the variants the
provided sources produce.  `PanicError` is a modelling aid: it marks
outcomes where the Rust code would panic inside the parser (running
out of recursion fuel never happens on the concrete inputs used
below). -/
inductive Error where
  | CompileError (file : StrT) (line : Nat) (message : Option StrT)
  | SyntaxError (file : StrT) (line : Nat) (message : StrT)
  | PanicError (message : StrT)
deriving DecidableEq, Repr

/-- The bytecode opcodes emitted in `syncomp.rs`.  The `Op` enum
itself lives outside the provided sources; the constructors and
their payloads are modelled from their uses in `syncomp.rs` and the
spec's opcode descriptions. -/
inductive Op where
  | Constant (slot : Nat)
  | Call (args : Nat)
  | GetIndex
  | AssignIndex
  | Add
  | Sub
  | Mul
  | Div
  | Equal
  | Less
  | Greater
  | Not
  | Neg
  | Assert
  | Contains
  | And
  | Or
  | Tuple (n : Nat)
  | List (n : Nat)
  | Set (n : Nat)
  | Dict (n : Nat)
  | Print
  | ReadGlobal (slot : Nat)
  | AssignGlobal (slot : Nat)
  | Return
deriving DecidableEq, Repr

/-- A compiled block: name, file, and the ordered opcodes each paired
with its source line (`Block` lives outside the provided sources;
modelled from its uses in `syncomp.rs` and the spec). -/
structure Block where
  name : StrT
  file : StrT
  ops : List (Op × Nat)
deriving DecidableEq, Repr

/-- `Block::new(name, file)`. -/
def Block.new (name : StrT) (file : StrT) : Block :=
  { name := name, file := file, ops := [] }

/-- `Block::add(op, line)`: append one opcode, return its index. -/
def Block.add (b : Block) (op : Op) (line : Nat) : Nat × Block :=
  (b.ops.length, { b with ops := b.ops ++ [(op, line)] })

/-- `enum Name { Slot(ConstantID), Namespace(NamespaceID) }`
(`syncomp.rs` lines 41-45). -/
inductive Name where
  | Slot (n : Nat)
  | Namespace (n : Nat)
deriving DecidableEq, Repr

/-- Lookup in a string-keyed `HashMap` modelled as an association
list in insertion order. -/
def alookup {α : Type} (m : List (StrT × α)) (k : StrT) : Option α :=
  (m.find? (fun p => p.1 == k)).map (·.2)

/-- `HashMap<Value, usize>` lookup: the probe is compared against
each stored key with `==` (`veq`). -/
def lookupValueSlot (m : List (Value × Nat)) (v : Value) : Option Nat :=
  (m.find? (fun p => veq v p.1)).map (·.2)

/-- `struct Compiler` (`syncomp.rs` lines 47-62).  The two
`HashMap`s are modelled as association lists in insertion order. -/
structure Compiler where
  blocks : List Block
  path_to_namespace_id : List (StrT × Nat)
  namespaces : List (List (StrT × Name))
  panic : Bool
  errors : List Error
  strings : List StrT
  constants : List Value
  values : List (Value × Nat)

/-- `Compiler::new()`. -/
def Compiler.new : Compiler :=
  { blocks := [], path_to_namespace_id := [], namespaces := [],
    panic := false, errors := [], strings := [], constants := [],
    values := [] }

/-- `Compiler::current_file`: the file of the last pushed block;
`none` models the `expect("No blocks pushed")` panic. -/
def Compiler.current_file (s : Compiler) : Option StrT :=
  s.blocks.getLast?.map (·.file)

/-- The `compile_error!` macro (`syncomp.rs` lines 64-78): if the
sticky `panic` flag is set, do nothing; otherwise set it and push
one `CompileError` carrying the current file and line. -/
def Compiler.compile_error (s : Compiler) (line : Nat) (msg : StrT) :
    Option Compiler :=
  if s.panic then some s
  else
    match s.current_file with
    | none => none
    | some f =>
      some { s with panic := true,
                    errors := s.errors ++ [.CompileError f line (some msg)] }

/-- `Compiler::constant` (`syncomp.rs` lines 102-115): intern a value
through the `values` map.  `HashMap::entry` hashes the key first, so
a value on which `Hash` panics (non-finite float) yields `none`;
a vacant entry appends the value at the next pool slot, an occupied
entry returns the stored slot. -/
def Compiler.constant (s : Compiler) (value : Value) :
    Option (Op × Compiler) :=
  match hashValue value with
  | none => none
  | some _ =>
    match lookupValueSlot s.values value with
    | some slot => some (.Constant slot, s)
    | none =>
      let slot := s.constants.length
      some (.Constant slot,
        { s with values := s.values ++ [(value, slot)],
                 constants := s.constants ++ [value] })

/-- `Compiler::add_op`: append an opcode (with the span's line) to
the last block; `none` models the `unwrap()` panic on no blocks. -/
def Compiler.add_op (s : Compiler) (span : Span) (op : Op) :
    Option (Nat × Compiler) :=
  match s.blocks.getLast? with
  | none => none
  | some b =>
    let r := b.add op span.line
    some (r.1, { s with blocks := s.blocks.dropLast ++ [r.2] })

/-- The `for op in ops { self.add_op(span, *op); }` loops of
`Compiler::un_op` / `Compiler::bin_op`. -/
def Compiler.add_op_list (s : Compiler) (span : Span) :
    List Op → Option Compiler
  | [] => some s
  | op :: tl => do
    let r ← s.add_op span op
    r.2.add_op_list span tl

/-- `Compiler::read` (`syncomp.rs` lines 221-228): look the name up
in `namespaces[0]` only; emit `ReadGlobal` on a hit, otherwise record
a compile error.  `none` models the panic of indexing an empty
`namespaces` vector. -/
def Compiler.read (s : Compiler) (name : StrT) (span : Span) :
    Option Compiler :=
  match s.namespaces.head? with
  | none => none
  | some ns =>
    match alookup ns name with
    | some (.Slot slot) => do
      let r ← s.add_op span (.ReadGlobal slot)
      some r.2
    | _ =>
      s.compile_error span.line
        ("No active variable called " ++ name ++ " could be found")

/-- `Compiler::set` (`syncomp.rs` lines 230-237): like `read` but
emitting `AssignGlobal`. -/
def Compiler.set (s : Compiler) (name : StrT) (span : Span) :
    Option Compiler :=
  match s.namespaces.head? with
  | none => none
  | some ns =>
    match alookup ns name with
    | some (.Slot slot) => do
      let r ← s.add_op span (.AssignGlobal slot)
      some r.2
    | _ =>
      s.compile_error span.line
        ("No active variable called " ++ name ++ " could be found")

/-- `Compiler::define`: a stub that always returns slot 0 (the body
is commented out in the source). -/
def Compiler.define (_name : StrT) (_kind : VarKind) (_ty : PType)
    (_span : Span) : Nat := 0

/-- `Compiler::activate`: a stub that does nothing. -/
def Compiler.activate (s : Compiler) (_slot : Nat) : Compiler := s

/-- `Compiler::push`: intern the value, then emit the resulting
`Constant` op. -/
def Compiler.push (s : Compiler) (value : Value) (span : Span) :
    Option Compiler := do
  let r ← s.constant value
  let r2 ← r.2.add_op span r.1
  some r2.2

mutual
/-- `Compiler::assignable` (`syncomp.rs` lines 121-145), arm for arm. -/
def Compiler.assignable : Assignable → Compiler → Option Compiler
  | .mk span (.Read ident), s => s.read ident.name span
  | .mk span (.Call a expr), s => do
    let s ← Compiler.assignable a s
    let s ← Compiler.expr_iter expr s
    let r ← s.add_op span (.Call expr.length)
    some r.2
  | .mk _ (.Access a b), s => do
    let s ← Compiler.assignable a s
    Compiler.assignable b s
  | .mk span (.Index a b), s => do
    let s ← Compiler.assignable a s
    let s ← Compiler.expression b s
    let r ← s.add_op span .GetIndex
    some r.2
termination_by a _ => sizeOf a
decreasing_by all_goals (simp_wf <;> omega)

/-- `Compiler::un_op`: compile the operand, then append the ops. -/
def Compiler.un_op (a : Expression) (ops : List Op) (span : Span)
    (s : Compiler) : Option Compiler := do
  let s ← Compiler.expression a s
  s.add_op_list span ops
termination_by sizeOf a + 1
decreasing_by all_goals (simp_wf <;> omega)

/-- `Compiler::bin_op`: compile both operands, then append the ops. -/
def Compiler.bin_op (a b : Expression) (ops : List Op) (span : Span)
    (s : Compiler) : Option Compiler := do
  let s ← Compiler.expression a s
  let s ← Compiler.expression b s
  s.add_op_list span ops
termination_by sizeOf a + sizeOf b + 1
decreasing_by all_goals (simp_wf <;> omega)

/-- `Compiler::expression` (`syncomp.rs` lines 167-219), arm for arm.
Note the `Not` arm emits `Op::Neg`, exactly as the source does.
The kinds not matched in the source (`Function`, `Instance`) fall
into `_ => unimplemented!()`, modelled as `none`. -/
def Compiler.expression : Expression → Compiler → Option Compiler
  | .mk _ (.Get a), s => Compiler.assignable a s
  | .mk span (.Add a b), s => Compiler.bin_op a b [.Add] span s
  | .mk span (.Sub a b), s => Compiler.bin_op a b [.Sub] span s
  | .mk span (.Mul a b), s => Compiler.bin_op a b [.Mul] span s
  | .mk span (.Div a b), s => Compiler.bin_op a b [.Div] span s
  | .mk span (.Eq a b), s => Compiler.bin_op a b [.Equal] span s
  | .mk span (.Neq a b), s => Compiler.bin_op a b [.Equal, .Not] span s
  | .mk span (.Gt a b), s => Compiler.bin_op a b [.Greater] span s
  | .mk span (.Gteq a b), s => Compiler.bin_op a b [.Less, .Not] span s
  | .mk span (.Lt a b), s => Compiler.bin_op a b [.Less] span s
  | .mk span (.Lteq a b), s => Compiler.bin_op a b [.Greater, .Not] span s
  | .mk span (.AssertEq a b), s => Compiler.bin_op a b [.Equal, .Assert] span s
  | .mk span (.Neg a), s => Compiler.un_op a [.Neg] span s
  | .mk span (.In a b), s => Compiler.bin_op a b [.Contains] span s
  | .mk span (.And a b), s => Compiler.bin_op a b [.And] span s
  | .mk span (.Or a b), s => Compiler.bin_op a b [.Or] span s
  | .mk span (.Not a), s => Compiler.un_op a [.Neg] span s
  | .mk span (.Tuple x), s => do
    let s ← Compiler.expr_iter x s
    let r ← s.add_op span (.Tuple x.length)
    some r.2
  | .mk span (.List x), s => do
    let s ← Compiler.expr_iter x s
    let r ← s.add_op span (.List x.length)
    some r.2
  | .mk span (.Set x), s => do
    let s ← Compiler.expr_iter x s
    let r ← s.add_op span (.Set x.length)
    some r.2
  | .mk span (.Dict x), s => do
    let s ← Compiler.expr_iter x s
    let r ← s.add_op span (.Dict x.length)
    some r.2
  | .mk span (.Float a), s => s.push (.Float a) span
  | .mk span (.Bool a), s => s.push (.Bool a) span
  | .mk span (.Int a), s => s.push (.Int a) span
  | .mk span (.Str a), s => s.push (.String a) span
  | .mk span .Nil, s => s.push .Nil span
  | .mk _ (.Function ..), _ => none
  | .mk _ (.Instance ..), _ => none
termination_by e _ => sizeOf e
decreasing_by all_goals (simp_wf <;> omega)

/-- `for expr in x.iter() { self.expression(expr); }`. -/
def Compiler.expr_iter : ExprList → Compiler → Option Compiler
  | .nil, s => some s
  | .cons e tl, s => do
    let s ← Compiler.expression e s
    Compiler.expr_iter tl s
termination_by l _ => sizeOf l
decreasing_by all_goals (simp_wf <;> omega)
end

/-- `Compiler::statement` (`syncomp.rs` lines 254-305), arm for arm.
In the `Assignment` arm, note the unconditional
`self.expression(value)` after the per-target-kind `match`.
`Access` targets hit `unimplemented!()` (`none`); statement kinds
not matched in the source (`Block`) fall into
`_ => unimplemented!()`. -/
def Compiler.statement : Statement → Compiler → Option Compiler
  | .mk _ .EmptyStatement, s => some s
  | .mk span (.Print value), s => do
    let s ← Compiler.expression value s
    let r ← s.add_op span .Print
    some r.2
  | .mk span (.Definition ident kind ty value), s => do
    let slot := Compiler.define ident.name kind ty span
    let s ← Compiler.expression value s
    some (s.activate slot)
  | .mk span (.Assignment _ target value), s => do
    let s ←
      match target with
      | .mk _ (.Read ident) => do
        let s ← Compiler.expression value s
        s.set ident.name span
      | .mk _ (.Call _ _) =>
        s.compile_error span.line "Cannot assign to result from function call"
      | .mk _ (.Access _ _) => none
      | .mk _ (.Index a b) => do
        let s ← Compiler.assignable a s
        let s ← Compiler.expression b s
        let s ← Compiler.expression value s
        let r ← s.add_op span .AssignIndex
        some r.2
    Compiler.expression value s
  | .mk _ (.StatementExpression value), s => Compiler.expression value s
  | .mk _ (.Use _), s => some s
  | .mk _ (.Block _), _ => none

/-- `syntree::Module`: a span and the top-level statements.  (Named
`SynModule` here because `Module` is taken by Mathlib.) -/
structure SynModule where
  span : Span
  statements : List Statement

/-- `for statement in module.statements.iter()` of
`Compiler::module`. -/
def Compiler.statements_iter : List Statement → Compiler → Option Compiler
  | [], s => some s
  | st :: tl, s => do
    let s ← Compiler.statement st s
    Compiler.statements_iter tl s

/-- `Compiler::module` (`syncomp.rs` lines 307-311). -/
def Compiler.module (m : SynModule) (s : Compiler) : Option Compiler :=
  Compiler.statements_iter m.statements s

/-- `syntree::Prog`: the modules, each paired with its path.  Paths
are modelled by their file stem (the module name), which is the only
thing `extract_globals` reads off them. -/
structure Prog where
  modules : List (StrT × SynModule)

/-- The output program (`crate::Prog` built at the end of
`Compiler::compile`; its `functions` vector is always empty here). -/
structure CProg where
  blocks : List Block
  functions : List Nat
  constants : List Value
  strings : List StrT

/-- First loop of `Compiler::extract_globals`: register one
namespace per module; a duplicate module name records a compile
error. -/
def Compiler.extract_globals_modules :
    List (StrT × SynModule) → Compiler → Option Compiler
  | [], s => some s
  | (path, _) :: tl, s =>
    let slot := s.path_to_namespace_id.length
    match alookup s.path_to_namespace_id path with
    | none =>
      Compiler.extract_globals_modules tl
        { s with path_to_namespace_id := s.path_to_namespace_id ++ [(path, slot)],
                 namespaces := s.namespaces ++ [[]] }
    | some _ => do
      let s ← s.compile_error 0 "Reading module twice. How?"
      Compiler.extract_globals_modules tl s

/-- Inner statement loop of the second pass of
`Compiler::extract_globals`: `Use` registers a `Namespace` alias,
`Definition` assigns the next global slot (`globals + 1`, skipping
the reserved entry slot); duplicates record a compile error.
Indexing `path_to_namespace_id` with a missing key (a `use` of an
unregistered module) is a Rust panic, modelled as `none`. -/
def Compiler.extract_globals_stmts :
    List Statement → Nat → Nat → Compiler → Option (Nat × Compiler)
  | [], _, globals, s => some (globals, s)
  | st :: tl, slot, globals, s => do
    let r ←
      (match st with
      | .mk _ (.Use file) =>
        match alookup s.path_to_namespace_id file.name with
        | none => none
        | some other =>
          match s.namespaces.get? slot with
          | none => none
          | some ns =>
            match alookup ns file.name with
            | none =>
              some (globals,
                { s with namespaces :=
                    s.namespaces.set slot (ns ++ [(file.name, Name.Namespace other)]) })
            | some _ => do
              let s ← s.compile_error file.span.line
                ("A global variable with the name " ++ file.name ++ " already exists")
              some (globals, s)
      | .mk _ (.Definition ident _ _ _) =>
        match s.namespaces.get? slot with
        | none => none
        | some ns =>
          match alookup ns ident.name with
          | none =>
            some (globals + 1,
              { s with namespaces :=
                  s.namespaces.set slot (ns ++ [(ident.name, Name.Slot (globals + 1))]) })
          | some _ => do
            let s ← s.compile_error ident.span.line
              ("A global variable with the name " ++ ident.name ++ " already exists")
            some (globals, s)
      | _ => some (globals, s))
    Compiler.extract_globals_stmts tl slot r.1 r.2

/-- Second loop of `Compiler::extract_globals`: walk every module's
top-level statements. -/
def Compiler.extract_globals_pass2 :
    List (StrT × SynModule) → Nat → Compiler → Option (Nat × Compiler)
  | [], globals, s => some (globals, s)
  | (path, m) :: tl, globals, s =>
    match alookup s.path_to_namespace_id path with
    | none => none
    | some slot => do
      let r ← Compiler.extract_globals_stmts m.statements slot globals s
      Compiler.extract_globals_pass2 tl r.1 r.2

/-- `Compiler::extract_globals` (`syncomp.rs` lines 342-412). -/
def Compiler.extract_globals (tree : Prog) (s : Compiler) :
    Option (Nat × Compiler) := do
  let s ← Compiler.extract_globals_modules tree.modules s
  Compiler.extract_globals_pass2 tree.modules 0 s

/-- The `for _ in 0..globals { self.add_op(Span { line: 0 }, nil) }`
loop of `Compiler::compile`. -/
def Compiler.emit_repeated : Nat → Op → Compiler → Option Compiler
  | 0, _, s => some s
  | n + 1, op, s => do
    let r ← s.add_op { line := 0 } op
    Compiler.emit_repeated n op r.2

/-- `Compiler::compile` (`syncomp.rs` lines 313-340): push the
preamble block, extract globals, reserve a nil constant per global,
compile the entry module's statements, emit the final nil and
`Return`, and succeed exactly when no error was recorded.  `none`
models the `assert!` on an empty module list. -/
def Compiler.compile (s : Compiler) (tree : Prog) :
    Option (Except (List Error) CProg) :=
  match tree.modules with
  | [] => none
  | (file0, m0) :: _ => do
    let s := { s with blocks := s.blocks ++ [Block.new "/preamble/" file0] }
    let r ← Compiler.extract_globals tree s
    let globals := r.1
    let rc ← r.2.constant .Nil
    let s ← Compiler.emit_repeated globals rc.1 rc.2
    let s ← Compiler.module m0 s
    let rc2 ← s.constant .Nil
    let r2 ← rc2.2.add_op m0.span rc2.1
    let r3 ← r2.2.add_op m0.span .Return
    let s := r3.2
    some (if s.errors.isEmpty then
      .ok { blocks := s.blocks, functions := [], constants := s.constants,
            strings := s.strings }
    else .error s.errors)

/-- `pub fn compile(prog) = Compiler::new().compile(prog)`
(`syncomp.rs` lines 416-418). -/
def compileProg (tree : Prog) : Option (Except (List Error) CProg) :=
  Compiler.new.compile tree

/-- The opcode/line list of the block currently being emitted into
(the last block), or `[]` when no block was pushed. -/
def Compiler.cur_ops (s : Compiler) : List (Op × Nat) :=
  match s.blocks.getLast? with
  | some b => b.ops
  | none => []

/-- The token kinds used in `sylt-parser/src/expression.rs` (the
token enum `T` itself lives in the tokenizer, outside the provided
sources; the variants are modelled from their uses there and from
the spec). -/
inductive T where
  | Float (f : F64)
  | Int (i : I64)
  | Bool (b : BoolT)
  | String (s : StrT)
  | Identifier (name : StrT)
  | Nil
  | Plus
  | Minus
  | Star
  | Slash
  | EqualEqual
  | NotEqual
  | Greater
  | GreaterEqual
  | Less
  | LessEqual
  | And
  | Or
  | In
  | AssertEqual
  | Arrow
  | Bang
  | Colon
  | Comma
  | Dot
  | Newline
  | LeftParen
  | RightParen
  | LeftBracket
  | RightBracket
  | LeftBrace
  | RightBrace
  | Fn
  | Else
  | EOF
deriving DecidableEq, Repr

/-- The parser's precedence classes.  Modelled from the spec:
index/call > factor > term > comparison > boolean-and > boolean-or
> assert > arrow, with `No` below everything. -/
inductive Prec where
  | No
  | Arrow
  | Assert
  | BoolOr
  | BoolAnd
  | Comp
  | Term
  | Factor
  | Index
deriving DecidableEq, Repr

/-- Rank of a precedence class. -/
def Prec.toNat : Prec → Nat
  | .No => 0
  | .Arrow => 1
  | .Assert => 2
  | .BoolOr => 3
  | .BoolAnd => 4
  | .Comp => 5
  | .Term => 6
  | .Factor => 7
  | .Index => 8

/-- `prec <= prec` on precedence classes. -/
def Prec.ble (a b : Prec) : Bool := a.toNat ≤ b.toNat

/-- `Prec::next()`: the next-higher precedence class (modelled from
the spec: recursing on the right-hand side with the operator's
next-higher precedence). -/
def Prec.next : Prec → Prec
  | .No => .Arrow
  | .Arrow => .Assert
  | .Assert => .BoolOr
  | .BoolOr => .BoolAnd
  | .BoolAnd => .Comp
  | .Comp => .Term
  | .Term => .Factor
  | .Factor => .Index
  | .Index => .Index

/-- The parser context: the file name, the token stream (each token
with its source line), and the cursor.  Modelled from the spec (the
`Context` type lives outside the provided sources): reading past the
end yields `EOF`. -/
structure Ctx where
  file : StrT
  tokens : List (T × Nat)
  curr : Nat
deriving DecidableEq, Repr

/-- `ctx.token()`. -/
def Ctx.token (c : Ctx) : T :=
  match c.tokens.get? c.curr with
  | some p => p.1
  | none => .EOF

/-- `ctx.span()`. -/
def Ctx.span (c : Ctx) : Span :=
  match c.tokens.get? c.curr with
  | some p => { line := p.2 }
  | none => { line := 0 }

/-- `ctx.skip(n)`. -/
def Ctx.skip (c : Ctx) (n : Nat) : Ctx := { c with curr := c.curr + n }

/-- `ctx.eat()`: current token, its span, and the advanced context. -/
def Ctx.eat (c : Ctx) : T × Span × Ctx := (c.token, c.span, c.skip 1)

/-- `ctx.skip_if(t)`. -/
def Ctx.skip_if (c : Ctx) (t : T) : Ctx :=
  if c.token == t then c.skip 1 else c

/-- Bounded helper for `ctx.skip_while(t)`. -/
def Ctx.skip_while_aux : Nat → Ctx → T → Ctx
  | 0, c, _ => c
  | n + 1, c, t => if c.token == t then Ctx.skip_while_aux n (c.skip 1) t else c

/-- `ctx.skip_while(t)`: skip leading tokens equal to `t`.  The
cursor can advance at most to the end of the stream, so the token
count bounds the recursion. -/
def Ctx.skip_while (c : Ctx) (t : T) : Ctx :=
  Ctx.skip_while_aux c.tokens.length c t

/-- The error side of a `ParseResult`: the context where parsing
failed plus the reported errors (`infix` reports an *empty* error
list for an unknown operator).  A `ParseResult<T>` is then
`Except PErr (Ctx × T)`: either the advanced context with the parsed
item, or this error pair. -/
abbrev PErr := Ctx × List Error

/-- The `raise_syntax_error!` macro: return one `SyntaxError`
carrying the file and the current line.  Modelled from the spec
(the macro lives outside the provided sources). -/
def Parser.raise_err {α : Type} (c : Ctx) (msg : StrT) : Except PErr (Ctx × α) :=
  .error (c, [.SyntaxError c.file c.span.line msg])

/-- The `expect!` macro: consume the expected token or report a
syntax error.  Modelled from the spec. -/
def Parser.expect (c : Ctx) (t : T) (msg : StrT) :
    Except (Ctx × List Error) Ctx :=
  if c.token == t then .ok (c.skip 1)
  else .error (c, [.SyntaxError c.file c.span.line msg])

/-- `precedence(token)` (`expression.rs` lines 106-132). -/
def Parser.precedence : T → Prec
  | .LeftBracket => .Index
  | .Star | .Slash => .Factor
  | .Minus | .Plus => .Term
  | .EqualEqual | .Greater | .GreaterEqual | .Less | .LessEqual
  | .NotEqual => .Comp
  | .And => .BoolAnd
  | .Or => .BoolOr
  | .In => .Index
  | .AssertEqual => .Assert
  | .Arrow => .Arrow
  | _ => .No

/-- `value(ctx)` (`expression.rs` lines 135-149): parse one literal
token. -/
def Parser.value (c : Ctx) : Except PErr (Ctx × Expression) :=
  let r := c.eat
  match r.1 with
  | .Float f => .ok (r.2.2, .mk r.2.1 (.Float f))
  | .Int i => .ok (r.2.2, .mk r.2.1 (.Int i))
  | .Bool b => .ok (r.2.2, .mk r.2.1 (.Bool b))
  | .Nil => .ok (r.2.2, .mk r.2.1 .Nil)
  | .String s => .ok (r.2.2, .mk r.2.1 (.Str s))
  | _ => Parser.raise_err r.2.2 "Cannot parse value, not a valid value"

/-- `parse_type`: modelled from the spec (lives outside the provided
sources): a type annotation is a type name. -/
def Parser.parse_type (c : Ctx) : Except PErr (Ctx × PType) :=
  match c.token with
  | .Identifier name => .ok (c.skip 1, { span := c.span, kind := .Named name })
  | _ => Parser.raise_err c "Expected a type"

/-- Convert an accumulated `Vec<Expression>` to an `ExprList`. -/
def toExprList : List Expression → ExprList
  | [] => .nil
  | e :: tl => .cons e (toExprList tl)

/-- Convert accumulated blob fields to a `FieldList`. -/
def toFieldList : List (StrT × Expression) → FieldList
  | [] => .nil
  | (n, e) :: tl => .cons n e (toFieldList tl)

/-- Convert accumulated statements to a `StmtList`. -/
def toStmtList : List Statement → StmtList
  | [] => .nil
  | s :: tl => .cons s (toStmtList tl)

mutual
/-- `function(ctx)` (`expression.rs` lines 6-83): parse a function
literal: parameters as name/type pairs until `->` (explicit return
type, defaulting to `Void` if the type fails to parse) or `{`
(implicit `Void`), then the block-statement body. -/
def Parser.function : Nat → Ctx → Except PErr (Ctx × Expression)
  | 0, c => .error (c, [.PanicError "out of fuel"])
  | f + 1, c => do
    let span := c.span
    let c ← Parser.expect c .Fn "Expected fn for function expression"
    let r ← Parser.function_params f c []
    let c := r.1
    let params := r.2.1
    let ret := r.2.2
    let r2 ← Parser.block_statement f c
    .ok (r2.1, .mk span (.Function "lambda" params ret r2.2))

/-- The parameter loop of `function`: one `name: Type` pair per
iteration, broken by `->` (parse the return type, or assume `Void`)
or `{` (assume `Void`). -/
def Parser.function_params : Nat → Ctx → List (Identifier × PType) →
    Except PErr (Ctx × (List (Identifier × PType)) × PType)
  | 0, c, _ => .error (c, [.PanicError "out of fuel"])
  | f + 1, c, params =>
    match c.token with
    | .Identifier name => do
      let ident : Identifier := { span := c.span, name := name }
      let c ← Parser.expect (c.skip 1) .Colon "Expected colon after parameter name"
      let r ← Parser.parse_type c
      let c := r.1
      let params := params ++ [(ident, r.2)]
      match c.token with
      | .Comma | .Arrow | .LeftBrace =>
        Parser.function_params f (c.skip_if .Comma) params
      | _ => Parser.raise_err c "Expected comma, left brace or arrow after type parameter"
    | .Arrow =>
      let c := c.skip 1
      (match Parser.parse_type c with
      | .ok (c2, ret) => .ok (c2, (params, ret))
      | .error _ => .ok (c, (params, { span := c.span, kind := .Resolved .Void })))
    | .LeftBrace =>
      .ok (c, (params, { span := c.span, kind := .Resolved .Void }))
    | _ => Parser.raise_err c "Did not expect this token in function"

/-- A block statement `{ ... }` used as a function body.  Modelled
from the spec (`block_statement` lives outside the provided
sources): newline-separated statements between braces; inner
statements are parsed as expression statements. -/
def Parser.block_statement : Nat → Ctx → Except PErr (Ctx × Statement)
  | 0, c => .error (c, [.PanicError "out of fuel"])
  | f + 1, c => do
    let span := c.span
    let c ← Parser.expect c .LeftBrace "Expected left brace for block"
    let r ← Parser.block_stmts f c []
    let c ← Parser.expect r.1 .RightBrace "Expected right brace after block"
    .ok (c, .mk span (.Block (toStmtList r.2)))

/-- The statement loop of `block_statement`.  Modelled from the
spec. -/
def Parser.block_stmts : Nat → Ctx → List Statement →
    Except PErr (Ctx × (List Statement))
  | 0, c, _ => .error (c, [.PanicError "out of fuel"])
  | f + 1, c, acc =>
    match c.token with
    | .Newline => Parser.block_stmts f (c.skip 1) acc
    | .RightBrace | .EOF => .ok (c, acc)
    | _ => do
      let r ← Parser.expression f c
      Parser.block_stmts f r.1
        (acc ++ [.mk (Expression.span r.2) (.StatementExpression r.2)])

/-- `parse_precedence(ctx, prec)` (`expression.rs` lines 86-99):
parse a prefix expression, then fold infix operators while their
precedence stays at or above `prec`. -/
def Parser.parse_precedence : Nat → Ctx → Prec → Except PErr (Ctx × Expression)
  | 0, c, _ => .error (c, [.PanicError "out of fuel"])
  | f + 1, c, prec => do
    let r ← Parser.prefixExpr f c
    Parser.prec_loop f r.1 r.2 prec

/-- The `while prec <= precedence(ctx.token())` loop of
`parse_precedence`: try `infix`; on its failure keep the expression
parsed so far (the reported error is swallowed). -/
def Parser.prec_loop : Nat → Ctx → Expression → Prec → Except PErr (Ctx × Expression)
  | 0, c, _, _ => .error (c, [.PanicError "out of fuel"])
  | f + 1, c, expr, prec =>
    if (Prec.ble prec (Parser.precedence c.token)) then
      match Parser.infixExpr f c expr with
      | .ok (c2, e2) => Parser.prec_loop f c2 e2 prec
      | .error _ => .ok (c, expr)
    else .ok (c, expr)

/-- `prefix(ctx)` (`expression.rs` lines 152-184), arm for arm; for
an identifier the speculative blob parse is attempted first and the
general assignable parse is the fallback.  (Named `prefixExpr`
because `prefix` is reserved in Lean.) -/
def Parser.prefixExpr : Nat → Ctx → Except PErr (Ctx × Expression)
  | 0, c => .error (c, [.PanicError "out of fuel"])
  | f + 1, c =>
    match c.token with
    | .LeftParen => Parser.grouping_or_tuple f c
    | .LeftBracket => Parser.list f c
    | .LeftBrace => Parser.set_or_dict f c
    | .Float _ | .Int _ | .Bool _ | .String _ | .Nil => Parser.value c
    | .Minus | .Bang => Parser.unary f c
    | .Identifier _ =>
      (match Parser.blob f c with
      | .ok r => .ok r
      | .error _ => do
        let span := c.span
        let r ← Parser.assignable f c
        .ok (r.1, .mk span (.Get r.2)))
    | _ => Parser.raise_err c "No valid expression starts with this token"

/-- `unary(ctx)` (`expression.rs` lines 187-203): `-`/`!` followed by
an expression at `Factor` precedence. -/
def Parser.unary : Nat → Ctx → Except PErr (Ctx × Expression)
  | 0, c => .error (c, [.PanicError "out of fuel"])
  | f + 1, c => do
    let r := c.eat
    let op := r.1
    let span := r.2.1
    let r2 ← Parser.parse_precedence f r.2.2 .Factor
    match op with
    | .Minus => .ok (r2.1, .mk span (.Neg r2.2))
    | .Bang => .ok (r2.1, .mk span (.Not r2.2))
    | _ => Parser.raise_err r2.1 "Invalid unary operator"

/-- `infix(ctx, lhs)` (`expression.rs` lines 206-264): eat the
operator, parse the right-hand side at the operator's next-higher
precedence, and build the corresponding expression kind.  The
`Arrow` arm splices `lhs` in as the first argument if the right-hand
side is a call expression and reports a syntax error otherwise; an
unknown operator yields `Err((ctx, Vec::new()))`.  (Named
`infixExpr` because `infix` is reserved in Lean.) -/
def Parser.infixExpr : Nat → Ctx → Expression → Except PErr (Ctx × Expression)
  | 0, c, _ => .error (c, [.PanicError "out of fuel"])
  | f + 1, c, lhs => do
    let r := c.eat
    let op := r.1
    let span := r.2.1
    let r2 ← Parser.parse_precedence f r.2.2 (Parser.precedence op).next
    let c := r2.1
    let rhs := r2.2
    match op with
    | .Plus => .ok (c, .mk span (.Add lhs rhs))
    | .Minus => .ok (c, .mk span (.Sub lhs rhs))
    | .Star => .ok (c, .mk span (.Mul lhs rhs))
    | .Slash => .ok (c, .mk span (.Div lhs rhs))
    | .EqualEqual => .ok (c, .mk span (.Eq lhs rhs))
    | .NotEqual => .ok (c, .mk span (.Neq lhs rhs))
    | .Greater => .ok (c, .mk span (.Gt lhs rhs))
    | .GreaterEqual => .ok (c, .mk span (.Gteq lhs rhs))
    | .Less => .ok (c, .mk span (.Lt lhs rhs))
    | .LessEqual => .ok (c, .mk span (.Lteq lhs rhs))
    | .And => .ok (c, .mk span (.And lhs rhs))
    | .Or => .ok (c, .mk span (.Or lhs rhs))
    | .AssertEqual => .ok (c, .mk span (.AssertEq lhs rhs))
    | .In => .ok (c, .mk span (.In lhs rhs))
    | .Arrow =>
      (match rhs with
      | .mk rspan (.Get (.mk _ (.Call callee args))) =>
        .ok (c, .mk span (.Get (.mk rspan (.Call callee (.cons lhs args)))))
      | _ => Parser.raise_err c "Expected a call-expression after arrow")
    | _ => .error (c, [])

/-- `grouping_or_tuple(ctx)` (`expression.rs` lines 273-313): `(...)`
is a tuple if it starts with `,` or `)`, or if a comma follows any
inner expression; otherwise the first inner expression is returned
as a grouping (`exprs.remove(0)`, a panic on an empty vector). -/
def Parser.grouping_or_tuple : Nat → Ctx → Except PErr (Ctx × Expression)
  | 0, c => .error (c, [.PanicError "out of fuel"])
  | f + 1, c => do
    let span := c.span
    let c ← Parser.expect c .LeftParen "Expected left paren"
    let is_tuple := c.token == .Comma || c.token == .RightParen
    let r ← Parser.grouping_loop f c [] is_tuple
    let c ← Parser.expect r.1 .RightParen "Expected right paren"
    if r.2.2 then .ok (c, .mk span (.Tuple (toExprList r.2.1)))
    else
      match r.2.1 with
      | e :: _ => .ok (c, e)
      | [] => .error (c, [.PanicError "remove on empty Vec"])

/-- The inner loop of `grouping_or_tuple`: skip a comma, stop at
`)`/EOF, otherwise parse another inner expression and remember
whether a comma follows it. -/
def Parser.grouping_loop : Nat → Ctx → List Expression → Bool →
    Except PErr (Ctx × (List Expression × Bool))
  | 0, c, _, _ => .error (c, [.PanicError "out of fuel"])
  | f + 1, c, exprs, is_tuple =>
    let c := c.skip_if .Comma
    match c.token with
    | .EOF | .RightParen => .ok (c, (exprs, is_tuple))
    | _ => do
      let r ← Parser.expression f c
      Parser.grouping_loop f r.1 (exprs ++ [r.2])
        (is_tuple || r.1.token == .Comma)

/-- `blob(ctx)` (`expression.rs` lines 316-371): a speculative blob
instantiation `Name { field: expr, ... }`; rejected if immediately
followed by `else`. -/
def Parser.blob : Nat → Ctx → Except PErr (Ctx × Expression)
  | 0, c => .error (c, [.PanicError "out of fuel"])
  | f + 1, c => do
    let span := c.span
    let r ← Parser.assignable f c
    let c ← Parser.expect r.1 .LeftBrace "Expected left brace after blob name"
    let r2 ← Parser.blob_fields f c []
    let c ← Parser.expect r2.1 .RightBrace "Expected right brace after blob initalizer"
    match c.token with
    | .Else => Parser.raise_err c "Parsed a blob instance not an if-statement"
    | _ => .ok (c, .mk span (.Instance r.2 (toFieldList r2.2)))

/-- The field loop of `blob`: newlines are skipped, each field is
`name: expr` followed by a delimiter (`,`, newline or `}`). -/
def Parser.blob_fields : Nat → Ctx → List (StrT × Expression) →
    Except PErr (Ctx × (List (StrT × Expression)))
  | 0, c, _ => .error (c, [.PanicError "out of fuel"])
  | f + 1, c, fields =>
    match c.token with
    | .Newline => Parser.blob_fields f (c.skip 1) fields
    | .RightBrace | .EOF => .ok (c, fields)
    | .Identifier name => do
      let c ← Parser.expect (c.skip 1) .Colon "Expected colon after field name"
      let r ← Parser.expression f c
      let c := r.1
      match c.token with
      | .Comma | .Newline | .RightBrace =>
        Parser.blob_fields f (c.skip_if .Comma) (fields ++ [(name, r.2)])
      | _ => Parser.raise_err c "Expected a delimiter: newline or comma"
    | _ => Parser.raise_err c "Unexpected token in blob initalizer"

/-- `list(ctx)` (`expression.rs` lines 374-410): a `[...]` list
literal; newlines inside are skipped. -/
def Parser.list : Nat → Ctx → Except PErr (Ctx × Expression)
  | 0, c => .error (c, [.PanicError "out of fuel"])
  | f + 1, c => do
    let span := c.span
    let c ← Parser.expect c .LeftBracket "Expected left bracket"
    let c := c.skip_while .Newline
    let r ← Parser.list_loop f c []
    let c ← Parser.expect r.1 .RightBracket "Expected right bracket"
    .ok (c, .mk span (.List (toExprList r.2)))

/-- The inner loop of `list`. -/
def Parser.list_loop : Nat → Ctx → List Expression →
    Except PErr (Ctx × (List Expression))
  | 0, c, _ => .error (c, [.PanicError "out of fuel"])
  | f + 1, c, exprs =>
    match c.token with
    | .EOF | .RightBracket => .ok (c, exprs)
    | _ => do
      let r ← Parser.expression f c
      Parser.list_loop f ((r.1.skip_if .Comma).skip_while .Newline)
        (exprs ++ [r.2])

/-- `set_or_dict(ctx)` (`expression.rs` lines 415-477): `{}` is the
empty set, `{:}` the empty dict; the first top-level `:` commits
the literal to a dict. -/
def Parser.set_or_dict : Nat → Ctx → Except PErr (Ctx × Expression)
  | 0, c => .error (c, [.PanicError "out of fuel"])
  | f + 1, c => do
    let span := c.span
    let c ← Parser.expect c .LeftBrace "Expected left brace"
    let r ← Parser.set_loop f c [] none
    let c ← Parser.expect r.1 .RightBrace "Expected right brace"
    if r.2.2.getD false then .ok (c, .mk span (.Dict (toExprList r.2.1)))
    else .ok (c, .mk span (.Set (toExprList r.2.1)))

/-- The inner loop of `set_or_dict`: `exprs` accumulates the entries
(for a dict: keys and values alternating); `is_dict` is `none` until
the first entry or free-standing `:` decides.  A free-standing `:`
after the decision is a syntax error, and once committed to a dict
every entry must carry `: value`. -/
def Parser.set_loop : Nat → Ctx → List Expression → Option Bool →
    Except PErr (Ctx × (List Expression × Option Bool))
  | 0, c, _, _ => .error (c, [.PanicError "out of fuel"])
  | f + 1, c, exprs, is_dict =>
    match c.token with
    | .EOF | .RightBrace => .ok (c, (exprs, is_dict))
    | .Colon =>
      (match is_dict with
      | some b =>
        Parser.raise_err c
          ("Empty dict pair is invalid in a " ++ (if b then "dict" else "set"))
      | none => Parser.set_loop f (c.skip 1) exprs (some true))
    | _ => do
      let r ← Parser.expression f c
      let c := r.1
      let exprs := exprs ++ [r.2]
      let d := is_dict.getD (c.token == .Colon)
      if d then do
        let c ← Parser.expect c .Colon "Expected colon for dict pair"
        let r2 ← Parser.expression f c
        Parser.set_loop f (r2.1.skip_if .Comma) (exprs ++ [r2.2]) (some d)
      else
        Parser.set_loop f (c.skip_if .Comma) exprs (some d)

/-- `expression(ctx)` (`expression.rs` lines 484-489): a function
literal or a precedence-climbing expression from `Prec::No`. -/
def Parser.expression : Nat → Ctx → Except PErr (Ctx × Expression)
  | 0, c => .error (c, [.PanicError "out of fuel"])
  | f + 1, c =>
    match c.token with
    | .Fn => Parser.function f c
    | _ => Parser.parse_precedence f c .No

/-- `assignable(ctx)`.  Modelled from the spec (the function lives
outside the provided sources): an identifier (`Read`) followed by
any chain of call-argument lists (`Call`), `.name` accesses
(`Access`) and `[expr]` indexings (`Index`). -/
def Parser.assignable : Nat → Ctx → Except PErr (Ctx × Assignable)
  | 0, c => .error (c, [.PanicError "out of fuel"])
  | f + 1, c =>
    match c.token with
    | .Identifier name =>
      let ident : Identifier := { span := c.span, name := name }
      Parser.assignable_suffix f (c.skip 1) (.mk c.span (.Read ident)) c.span
    | _ => Parser.raise_err c "Expected an identifier"

/-- The suffix loop of `assignable`.  Modelled from the spec. -/
def Parser.assignable_suffix : Nat → Ctx → Assignable → Span →
    Except PErr (Ctx × Assignable)
  | 0, c, _, _ => .error (c, [.PanicError "out of fuel"])
  | f + 1, c, acc, span =>
    match c.token with
    | .LeftParen => do
      let r ← Parser.call_args f (c.skip 1) []
      let c ← Parser.expect r.1 .RightParen "Expected right paren after call arguments"
      Parser.assignable_suffix f c (.mk span (.Call acc (toExprList r.2))) span
    | .Dot =>
      let c2 := c.skip 1
      (match c2.token with
      | .Identifier name =>
        let ident : Identifier := { span := c2.span, name := name }
        Parser.assignable_suffix f (c2.skip 1)
          (.mk span (.Access acc (.mk c2.span (.Read ident)))) span
      | _ => Parser.raise_err c2 "Expected an identifier after dot")
    | .LeftBracket => do
      let r ← Parser.expression f (c.skip 1)
      let c ← Parser.expect r.1 .RightBracket "Expected right bracket after index"
      Parser.assignable_suffix f c (.mk span (.Index acc r.2)) span
    | _ => .ok (c, acc)

/-- The call-argument loop of `assignable`.  Modelled from the
spec: comma-separated expressions until `)`. -/
def Parser.call_args : Nat → Ctx → List Expression →
    Except PErr (Ctx × (List Expression))
  | 0, c, _ => .error (c, [.PanicError "out of fuel"])
  | f + 1, c, args =>
    match c.token with
    | .EOF | .RightParen => .ok (c, args)
    | _ => do
      let r ← Parser.expression f c
      Parser.call_args f (r.1.skip_if .Comma) (args ++ [r.2])
end

/-- A token stream for a one-line source: every token on line 1,
in a file called "test". -/
def lineOne (l : List T) : Ctx :=
  { file := "test", tokens := l.map (fun t => (t, 1)), curr := 0 }

/-- Parse a one-line token stream as an expression (with ample
fuel; all inputs used below are a handful of tokens long). -/
def parseToks (l : List T) : Except PErr (Ctx × Expression) :=
  Parser.expression 100 (lineOne l)

/-- The expression of a successful parse. -/
def parsedExpr {α : Type} : Except PErr (Ctx × α) → Option α
  | .ok (_, e) => some e
  | .error _ => none

/-- The reported errors of a failed parse. -/
def errMsgs {α : Type} : Except PErr (Ctx × α) → Option (List Error)
  | .ok _ => none
  | .error (_, e) => some e

/-- The AST `f(a, b)`: a call of `f` with arguments `a` and `b`,
everything on line 1. -/
def fCallAB : Expression :=
  .mk { line := 1 } (.Get (.mk { line := 1 }
    (.Call (.mk { line := 1 } (.Read { span := { line := 1 }, name := "f" }))
      (.cons (.mk { line := 1 } (.Get (.mk { line := 1 }
          (.Read { span := { line := 1 }, name := "a" }))))
        (.cons (.mk { line := 1 } (.Get (.mk { line := 1 }
            (.Read { span := { line := 1 }, name := "b" }))))
          .nil)))))

/-- The AST `a` (a bare read), on line 1. -/
def aRead : Expression :=
  .mk { line := 1 } (.Get (.mk { line := 1 }
    (.Read { span := { line := 1 }, name := "a" })))

/-- C2: parsing `a -> f(b)` yields exactly the same AST as parsing
`f(a, b)` — a call of `f` with `a` spliced in as the first argument —
so the compiler, a function of the AST, treats both identically; and
when the right-hand side of `->` is not a call expression (here
`a -> 5`), `infix` reports a syntax error ("Expected a
call-expression after '->'").  The surrounding `parse_precedence`
loop swallows that error and returns `a` with the `->` token left
unconsumed, which the enclosing statement grammar cannot absorb. -/
theorem claim_C2_arrow_call_sugar :
    (parsedExpr (parseToks [.Identifier "a", .Arrow, .Identifier "f",
        .LeftParen, .Identifier "b", .RightParen, .EOF]) = some fCallAB)
  ∧ (parsedExpr (parseToks [.Identifier "f", .LeftParen, .Identifier "a",
        .Comma, .Identifier "b", .RightParen, .EOF]) = some fCallAB)
  ∧ (errMsgs (Parser.infixExpr 100
        { file := "test",
          tokens := [(.Identifier "a", 1), (.Arrow, 1), (.Int 5, 1), (.EOF, 1)],
          curr := 1 } aRead) =
      some [.SyntaxError "test" 1 "Expected a call-expression after arrow"])
  ∧ (parseToks [.Identifier "a", .Arrow, .Int 5, .EOF] =
      .ok ({ file := "test",
             tokens := [(.Identifier "a", 1), (.Arrow, 1), (.Int 5, 1), (.EOF, 1)],
             curr := 1 }, aRead)) :=
  ⟨rfl, rfl, rfl, rfl⟩

/-- C3 counterexample: `(1 2)` — a parenthesis containing more than
one element (no separating comma) — parses *successfully* as a
grouping returning the first inner expression `1`, not as a tuple
literal, refuting "contains more than one element, any of which
makes it a tuple literal". -/
theorem claim_C3_counterexample_two_elements_grouping :
    parsedExpr (parseToks [.LeftParen, .Int 1, .Int 2, .RightParen, .EOF]) =
      some (.mk { line := 1 } (.Int 1)) := rfl

/-- C3 (amended): `(1)` parses as the integer expression `1`, `(1,)`
as a one-element tuple, `()` and `(,)` as the zero-element tuple and
`(1, 2)` as a two-element tuple; the parenthesis is a tuple literal
iff it is empty or a comma appears right after the opening
parenthesis or right after some inner element — multiple elements
*separated by commas* therefore always form a tuple, but adjacent
elements with no comma (e.g. `(1 2)`) remain a grouping that
returns the first element. -/
theorem claim_C3_grouping_or_tuple :
    (parsedExpr (parseToks [.LeftParen, .Int 1, .RightParen, .EOF]) =
      some (.mk { line := 1 } (.Int 1)))
  ∧ (parsedExpr (parseToks [.LeftParen, .Int 1, .Comma, .RightParen, .EOF]) =
      some (.mk { line := 1 }
        (.Tuple (.cons (.mk { line := 1 } (.Int 1)) .nil))))
  ∧ (parsedExpr (parseToks [.LeftParen, .RightParen, .EOF]) =
      some (.mk { line := 1 } (.Tuple .nil)))
  ∧ (parsedExpr (parseToks [.LeftParen, .Comma, .RightParen, .EOF]) =
      some (.mk { line := 1 } (.Tuple .nil)))
  ∧ (parsedExpr (parseToks [.LeftParen, .Int 1, .Comma, .Int 2,
        .RightParen, .EOF]) =
      some (.mk { line := 1 }
        (.Tuple (.cons (.mk { line := 1 } (.Int 1))
          (.cons (.mk { line := 1 } (.Int 2)) .nil)))))
  ∧ (parsedExpr (parseToks [.LeftParen, .Int 1, .Int 2, .RightParen, .EOF]) =
      some (.mk { line := 1 } (.Int 1))) :=
  ⟨rfl, rfl, rfl, rfl, rfl, rfl⟩

/-- C4: `{}` parses as the empty set, `{:}` as the empty dict,
`{1: 2}` as a one-pair dict (keys and values stored alternating in
the entry list), and mixing a bare set-style value with a dict-style
pair is a syntax error in either order: in `{1, 2: 3}` the literal
commits to "set" after `1` and the later `:` is rejected as an empty
dict pair, and in `{1: 2, 3}` the literal commits to "dict" after
`1:` and the entry `3` lacking a `:` is rejected. -/
theorem claim_C4_set_or_dict :
    (parsedExpr (parseToks [.LeftBrace, .RightBrace, .EOF]) =
      some (.mk { line := 1 } (.Set .nil)))
  ∧ (parsedExpr (parseToks [.LeftBrace, .Colon, .RightBrace, .EOF]) =
      some (.mk { line := 1 } (.Dict .nil)))
  ∧ (parsedExpr (parseToks [.LeftBrace, .Int 1, .Colon, .Int 2,
        .RightBrace, .EOF]) =
      some (.mk { line := 1 }
        (.Dict (.cons (.mk { line := 1 } (.Int 1))
          (.cons (.mk { line := 1 } (.Int 2)) .nil)))))
  ∧ (errMsgs (parseToks [.LeftBrace, .Int 1, .Comma, .Int 2, .Colon,
        .Int 3, .RightBrace, .EOF]) =
      some [.SyntaxError "test" 1 "Empty dict pair is invalid in a set"])
  ∧ (errMsgs (parseToks [.LeftBrace, .Int 1, .Colon, .Int 2, .Comma,
        .Int 3, .RightBrace, .EOF]) =
      some [.SyntaxError "test" 1 "Expected colon for dict pair"]) :=
  ⟨rfl, rfl, rfl, rfl, rfl⟩

/-- `find?` on an appended list: a hit in the front half wins. -/
theorem find?_append_of_some {α : Type} (l1 l2 : List α) (p : α → Bool)
    (x : α) (h : l1.find? p = some x) : (l1 ++ l2).find? p = some x := by
  induction l1 with
  | nil => simp [List.find?] at h
  | cons a tl ih =>
    by_cases hp : p a
    · simpa [List.find?, hp] using h
    · simp only [List.find?, hp] at h
      simpa [List.find?, hp] using ih h

/-- `find?` on an appended list with no hit in the front half. -/
theorem find?_append_of_none {α : Type} (l1 l2 : List α) (p : α → Bool)
    (h : l1.find? p = none) : (l1 ++ l2).find? p = l2.find? p := by
  induction l1 with
  | nil => simp
  | cons a tl ih =>
    by_cases hp : p a
    · simp [List.find?, hp] at h
    · simp only [List.find?, hp] at h
      simpa [List.find?, hp] using ih h

/-- An interning lookup survives interning another value. -/
theorem lookupValueSlot_constant_mono (s : Compiler) (v w : Value)
    (i : Nat) (op : Op) (s1 : Compiler)
    (hc : s.constant w = some (op, s1))
    (hl : lookupValueSlot s.values v = some i) :
    lookupValueSlot s1.values v = some i := by
  unfold Compiler.constant at hc
  cases hh : hashValue w with
  | none => rw [hh] at hc; exact absurd hc (by simp)
  | some l =>
    rw [hh] at hc
    cases hw : lookupValueSlot s.values w with
    | some slot =>
      rw [hw] at hc
      simp only [Option.some.injEq, Prod.mk.injEq] at hc
      rw [← hc.2]
      exact hl
    | none =>
      rw [hw] at hc
      simp only [Option.some.injEq, Prod.mk.injEq] at hc
      rw [← hc.2]
      unfold lookupValueSlot at hl ⊢
      simp only
      cases hf : s.values.find? (fun p => veq v p.1) with
      | none => rw [hf] at hl; simp at hl
      | some q =>
        rw [find?_append_of_some _ _ _ _ hf]
        rw [hf] at hl
        simpa using hl

/-- Interning idempotence for self-equal values: re-interning the
same value returns the same `Constant` op and leaves the compiler
unchanged. -/
theorem constant_idempotent_of_refl (s : Compiler) (v : Value) (op : Op)
    (s1 : Compiler) (hrefl : veq v v = true)
    (hc : s.constant v = some (op, s1)) :
    s1.constant v = some (op, s1) := by
  unfold Compiler.constant at hc ⊢
  cases hh : hashValue v with
  | none => rw [hh] at hc; exact absurd hc (by simp)
  | some l =>
    rw [hh] at hc
    cases hw : lookupValueSlot s.values v with
    | some slot =>
      rw [hw] at hc
      simp only [Option.some.injEq, Prod.mk.injEq] at hc
      rw [← hc.2, ← hc.1, hw]
    | none =>
      rw [hw] at hc
      simp only [Option.some.injEq, Prod.mk.injEq] at hc
      rw [← hc.2, ← hc.1]
      have : lookupValueSlot (s.values ++ [(v, s.constants.length)]) v =
          some s.constants.length := by
        unfold lookupValueSlot at hw ⊢
        cases hf : s.values.find? (fun p => veq v p.1) with
        | some q => rw [hf] at hw; simp at hw
        | none =>
          rw [find?_append_of_none _ _ _ hf]
          simp [List.find?, hrefl]
      simp [this]

/-- C5 (amended): constant interning is idempotent for every value
that is equal to itself under the `Value` equality used by the
interning map (`v == v`, which holds for all literal values the
compiler interns: ints, bools, strings, nil and finite floats):
interning it twice returns the same pool index and the second call
changes nothing; moreover an interned slot survives any later
interning, so equal literals from any two call sites share one pool
slot.  (The reflexivity proviso is forced by the counterexample:
`Value`'s `PartialEq` is not reflexive on every variant.) -/
theorem claim_C5_constant_interning :
    (∀ (s : Compiler) (v : Value) (op : Op) (s1 : Compiler),
      veq v v = true →
      s.constant v = some (op, s1) →
      s1.constant v = some (op, s1))
  ∧ (∀ (s : Compiler) (v w : Value) (i : Nat) (op : Op) (s1 : Compiler),
      s.constant w = some (op, s1) →
      lookupValueSlot s.values v = some i →
      lookupValueSlot s1.values v = some i) :=
  ⟨constant_idempotent_of_refl, lookupValueSlot_constant_mono⟩

/-- The compiler state after interning `Value::Unknown` once. -/
def unknownInterned : Compiler :=
  { Compiler.new with values := [(.Unknown, 0)], constants := [.Unknown] }

/-- C5 counterexample: interning `Value::Unknown` twice yields pool
index 0 and then pool index 1 — different indices for the very same
value — because `Value`'s `PartialEq` returns `false` on
`Unknown == Unknown`, so the `HashMap` lookup never hits. -/
theorem claim_C5_counterexample_unknown :
    (Compiler.new.constant .Unknown = some (.Constant 0, unknownInterned))
  ∧ (unknownInterned.constant .Unknown = some (.Constant 1,
      { unknownInterned with values := [(.Unknown, 0), (.Unknown, 1)],
                             constants := [.Unknown, .Unknown] })) := by
  constructor
  · simp [Compiler.constant, Compiler.new, unknownInterned, lookupValueSlot,
      hashValue, veq, List.find?]
  · simp [Compiler.constant, Compiler.new, unknownInterned, lookupValueSlot,
      hashValue, veq, List.find?]

/-- Witness for C5: instantiating the amended theorem at
`Value::Int 5` in the state where it was just interned. -/
theorem claim_C5_constant_interning_witness :
    veq (Value.Int 5) (Value.Int 5) = true ∧
    Compiler.constant
      { Compiler.new with values := [(.Int 5, 0)], constants := [.Int 5] }
      (.Int 5) =
    some (.Constant 0,
      { Compiler.new with values := [(.Int 5, 0)], constants := [.Int 5] }) :=
  ⟨by simp [veq],
   claim_C5_constant_interning.1 Compiler.new (.Int 5) (.Constant 0)
     { Compiler.new with values := [(.Int 5, 0)], constants := [.Int 5] }
     (by simp [veq])
     (by simp [Compiler.constant, Compiler.new, lookupValueSlot, hashValue,
        List.find?])⟩

mutual
/-- Hashing a value that is, or contains under `Tuple` nesting, a
non-finite float panics (the `assert!` in the `Float` arm fires). -/
theorem hash_none_of_tuple_nonfinite (v : Value)
    (h : tupleContainsNonFinite v = true) : hashValue v = none := by
  cases v with
  | Float a =>
    simp [tupleContainsNonFinite] at h
    simp [hashValue, h]
  | Tuple l =>
    have hl := hashVList_none_of_nonfinite l
      (by simpa [tupleContainsNonFinite] using h)
    simp [hashValue, hl]
  | _ => simp [tupleContainsNonFinite] at h
termination_by sizeOf v

/-- List version of `hash_none_of_tuple_nonfinite`. -/
theorem hashVList_none_of_nonfinite (l : VList)
    (h : vlistContainsNonFinite l = true) : hashVList l = none := by
  cases l with
  | nil => simp [vlistContainsNonFinite] at h
  | cons v tl =>
    simp only [vlistContainsNonFinite, Bool.or_eq_true] at h
    cases h with
    | inl hv =>
      have := hash_none_of_tuple_nonfinite v hv
      simp [hashVList, this]
    | inr ht =>
      have := hashVList_none_of_nonfinite tl ht
      simp [hashVList, this]
termination_by sizeOf l
end

/-- C6 (amended): hashing a `Value` that is a non-finite float, or
contains one through `Tuple` nesting, always fails fast through the
`assert!(a.is_finite())` — it never silently succeeds; hashing a
finite float succeeds and hashes exactly its bit pattern.  (The
"contains" part is restricted to `Tuple` nesting by the
counterexample: every other container variant falls into the
`_ => {}` hash arm, which does not descend into elements.) -/
theorem claim_C6_hash_nonfinite_floats :
    (∀ v : Value, tupleContainsNonFinite v = true → hashValue v = none)
  ∧ (∀ b : I64, hashValue (.Float (.finite b)) = some [.floatBits b])
  ∧ (∀ f : F64, f.is_finite = false → hashValue (.Float f) = none) :=
  ⟨hash_none_of_tuple_nonfinite,
   fun b => by simp [hashValue, F64.is_finite, F64.to_bits],
   fun f hf => by simp [hashValue, hf]⟩

/-- C6 counterexample: a `List` containing the non-finite float NaN
hashes *successfully* (the `List` variant falls into the `_ => {}`
arm and writes nothing), refuting "a Value that ... contains ... a
non-finite float fails fast via an assertion and never silently
succeeds". -/
theorem claim_C6_counterexample_list_nan :
    hashValue (.List (.cons (.Float .nan) .nil)) = some [] := by
  simp [hashValue]

/-- Witness for C6: the amended theorem applied to the tuple
`(0.5-bits, nan)` — a tuple containing a non-finite float — whose
hash is `none`, and to the finite float `1.0`. -/
theorem claim_C6_hash_nonfinite_floats_witness :
    (tupleContainsNonFinite
        (.Tuple (.cons (.Int 3) (.cons (.Float .nan) .nil))) = true)
  ∧ hashValue (.Tuple (.cons (.Int 3) (.cons (.Float .nan) .nil))) = none
  ∧ hashValue (.Float (.finite 4602678819172646912)) =
      some [.floatBits 4602678819172646912]
  ∧ (F64.nan.is_finite = false ∧ hashValue (.Float .nan) = none) :=
  ⟨by simp [tupleContainsNonFinite, vlistContainsNonFinite, F64.is_finite],
   claim_C6_hash_nonfinite_floats.1 _
     (by simp [tupleContainsNonFinite, vlistContainsNonFinite, F64.is_finite]),
   claim_C6_hash_nonfinite_floats.2.1 _,
   by simp [F64.is_finite],
   claim_C6_hash_nonfinite_floats.2.2 _ (by simp [F64.is_finite])⟩

/-- The discriminant ("tag") of a `Value` variant. -/
def Value.tag : Value → Nat
  | .Field _ => 0
  | .Ty _ => 1
  | .Blob _ => 2
  | .Instance _ _ => 3
  | .Tuple _ => 4
  | .List _ => 5
  | .Set _ => 6
  | .Dict _ => 7
  | .Iter _ => 8
  | .Union _ => 9
  | .Float _ => 10
  | .Int _ => 11
  | .Bool _ => 12
  | .String _ => 13
  | .Function _ _ => 14
  | .ExternFunction _ => 15
  | .Unknown => 16
  | .Nil => 17

/-- Whether a value is a `Union`. -/
def Value.isUnion : Value → BoolT
  | .Union _ => true
  | _ => false

/-- Equality of values with different tags, neither a `Union`, is
`false` (every such pair falls into the `_ => false` arm). -/
theorem veq_mismatched_tags (v w : Value) (h : v.tag ≠ w.tag)
    (hv : v.isUnion = false) (hw : w.isUnion = false) : veq v w = false := by
  cases v <;> cases w <;> simp_all [veq, Value.tag, Value.isUnion]

/-- C7: `Value` equality is pointwise for `Float`/`Int`/`Bool`/
`String`, structural for `Tuple`/`List` (elementwise) and
`Set`/`Dict` (equal size and every left element/pair matched on the
right, the `HashSet`/`HashMap` formulas), `false` — never an error —
across mismatched non-`Union` tags, and a `Union` equals a value iff
some member of the union equals it, the same formula whichever side
the `Union` is on (so `u == v ↔ v == u` when one side is a `Union`
and the other is not). -/
theorem claim_C7_value_equality :
    (∀ a b : F64, veq (.Float a) (.Float b) = F64.feq a b)
  ∧ (∀ a b : I64, veq (.Int a) (.Int b) = (a == b))
  ∧ (∀ a b : BoolT, veq (.Bool a) (.Bool b) = (a == b))
  ∧ (∀ a b : StrT, veq (.String a) (.String b) = (a == b))
  ∧ (∀ a b : VList, veq (.Tuple a) (.Tuple b) = vlisteq a b)
  ∧ (∀ a b : VList, veq (.List a) (.List b) = vlisteq a b)
  ∧ (∀ a b : VList, veq (.Set a) (.Set b) =
      (a.length == b.length && vsetSub a b))
  ∧ (∀ a b : VPList, veq (.Dict a) (.Dict b) =
      (a.length == b.length && vdictSub a b))
  ∧ (∀ v w : Value, v.tag ≠ w.tag → v.isUnion = false →
      w.isUnion = false → veq v w = false)
  ∧ (∀ (xs : VList) (v : Value), veq (.Union xs) v = vany xs v)
  ∧ (∀ (xs : VList) (v : Value), v.isUnion = false →
      veq v (.Union xs) = vany xs v) :=
  ⟨fun a b => by simp [veq],
   fun a b => by simp [veq],
   fun a b => by simp [veq],
   fun a b => by simp [veq],
   fun a b => by simp [veq],
   fun a b => by simp [veq],
   fun a b => by simp [veq],
   fun a b => by simp [veq],
   veq_mismatched_tags,
   fun xs v => by simp [veq],
   fun xs v hv => by
     cases v <;> simp_all [veq, Value.isUnion]⟩

/-- Witness for C7: the hypothesis-bearing conjuncts applied at
concrete values: `Int 1` vs `Bool true` (mismatched tags, no
`Union`), and `Int 1 == Union {Int 1}` (the plain value on the
left). -/
theorem claim_C7_value_equality_witness :
    ((Value.Int 1).tag ≠ (Value.Bool true).tag
      ∧ (Value.Int 1).isUnion = false
      ∧ (Value.Bool true).isUnion = false
      ∧ veq (.Int 1) (.Bool true) = false)
  ∧ (veq (.Int 1) (.Union (.cons (.Int 1) .nil)) =
      vany (.cons (.Int 1) .nil) (.Int 1)
    ∧ veq (.Int 1) (.Union (.cons (.Int 1) .nil)) = true) :=
  ⟨⟨by simp [Value.tag], by simp [Value.isUnion], by simp [Value.isUnion],
    claim_C7_value_equality.2.2.2.2.2.2.2.2.1 (.Int 1) (.Bool true)
      (by simp [Value.tag]) (by simp [Value.isUnion]) (by simp [Value.isUnion])⟩,
   ⟨claim_C7_value_equality.2.2.2.2.2.2.2.2.2.2 (.cons (.Int 1) .nil) (.Int 1)
      (by simp [Value.isUnion]),
    by simp [veq, vany]⟩⟩

/-- C8: the `Type → Value` conversion produces the representative
default value of each shape: `Int → 1`, `Float → 1.0`,
`Bool → true`, `String → ""`, `List(T)`/`Set(T)` → a one-element
container holding `T`'s default, `Dict(K, V)` → a one-pair dict of
the defaults, `Tuple` → the tuple of its components' defaults
(computed pointwise), and `Unknown`/`Invalid` → `Value::Unknown`. -/
theorem claim_C8_type_to_default_value :
    (Value.fromType .Int = .Int 1)
  ∧ (Value.fromType .Float = .Float F64.one)
  ∧ (Value.fromType .Bool = .Bool true)
  ∧ (Value.fromType .String = .String "")
  ∧ (∀ t : Ty, Value.fromType (.List t) =
      .List (.cons (Value.fromType t) .nil))
  ∧ (∀ t : Ty, Value.fromType (.Set t) =
      .Set (.cons (Value.fromType t) .nil))
  ∧ (∀ k v : Ty, Value.fromType (.Dict k v) =
      .Dict (.cons (Value.fromType k) (Value.fromType v) .nil))
  ∧ (∀ ts : List Ty, Value.fromType (.Tuple ts) = .Tuple (fromTypeList ts))
  ∧ (∀ (t : Ty) (ts : List Ty),
      fromTypeList (t :: ts) = .cons (Value.fromType t) (fromTypeList ts))
  ∧ (fromTypeList [] = .nil)
  ∧ (Value.fromType .Unknown = .Unknown)
  ∧ (Value.fromType .Invalid = .Unknown) :=
  ⟨by simp [Value.fromType], by simp [Value.fromType],
   by simp [Value.fromType], by simp [Value.fromType],
   fun t => by simp [Value.fromType],
   fun t => by simp [Value.fromType],
   fun k v => by simp [Value.fromType],
   fun ts => by simp [Value.fromType],
   fun t ts => by simp [fromTypeList],
   by simp [fromTypeList],
   by simp [Value.fromType], by simp [Value.fromType]⟩

/-- C10: the compiler's `Not(a)` arm is `self.un_op(a, &[Op::Neg],
..)` — the arithmetic negation opcode, not `Op::Not` — which is
literally the same call as the `Neg(a)` arm, so `!a` and `-a`
compile to identical bytecode from any compiler state. -/
theorem claim_C10_not_compiles_as_neg :
    (∀ (sp : Span) (a : Expression) (s : Compiler),
      Compiler.expression (.mk sp (.Not a)) s = Compiler.un_op a [.Neg] sp s)
  ∧ (∀ (sp : Span) (a : Expression) (s : Compiler),
      Compiler.expression (.mk sp (.Not a)) s =
        Compiler.expression (.mk sp (.Neg a)) s) :=
  ⟨fun sp a s => by simp [Compiler.expression],
   fun sp a s => by simp [Compiler.expression]⟩

/-- Interning lookups in `m` all survive into `m'`. -/
def ValuesExt (m m' : List (Value × Nat)) : Prop :=
  ∀ v i, lookupValueSlot m v = some i → lookupValueSlot m' v = some i

theorem ValuesExt.refl_ve (m : List (Value × Nat)) : ValuesExt m m := fun _ _ h => h

theorem ValuesExt.trans_ve {a b c : List (Value × Nat)}
    (h1 : ValuesExt a b) (h2 : ValuesExt b c) : ValuesExt a c :=
  fun v i h => h2 v i (h1 v i h)

/-- The opcodes a successful emission step appended to the current
block. -/
def emitDelta (s s' : Compiler) : List (Op × Nat) :=
  s'.cur_ops.drop s.cur_ops.length

/-- What one emission step (first run) guarantees about the state:
namespaces, module table, strings and block count unchanged;
interning lookups preserved; opcodes only appended. -/
def FirstShape (s s' : Compiler) : Prop :=
  s'.namespaces = s.namespaces ∧
  s'.path_to_namespace_id = s.path_to_namespace_id ∧
  s'.strings = s.strings ∧
  s'.blocks.length = s.blocks.length ∧
  ValuesExt s.values s'.values ∧
  s'.cur_ops = s.cur_ops ++ emitDelta s s'

/-- A re-run of an emission step from `t` only appends `d` to the
current block (panic flag and error list aside, everything else is
untouched). -/
def StateShape (t t' : Compiler) (d : List (Op × Nat)) : Prop :=
  t'.namespaces = t.namespaces ∧
  t'.path_to_namespace_id = t.path_to_namespace_id ∧
  t'.strings = t.strings ∧
  t'.constants = t.constants ∧
  t'.values = t.values ∧
  t'.blocks.length = t.blocks.length ∧
  t'.cur_ops = t.cur_ops ++ d

/-- Replayability: re-running the emission step from any later state
`t` (same namespaces, all interning results of the first run
available, some block to emit into) succeeds and appends exactly the
same opcodes again. -/
def Replays (f : Compiler → Option Compiler) (s s' : Compiler) : Prop :=
  ∀ t : Compiler, t.namespaces = s.namespaces →
    ValuesExt s'.values t.values → t.blocks ≠ [] →
    ∃ t', f t = some t' ∧ StateShape t t' (emitDelta s s')

theorem FirstShape.refl_fs (s : Compiler) : FirstShape s s := by
  refine ⟨rfl, rfl, rfl, rfl, ValuesExt.refl_ve _, ?_⟩
  simp [emitDelta]

/-- Chaining the opcode-append equations of two steps. -/
theorem cur_ops_chain {s s1 s2 : Compiler}
    (o1 : s1.cur_ops = s.cur_ops ++ emitDelta s s1)
    (o2 : s2.cur_ops = s1.cur_ops ++ emitDelta s1 s2) :
    s2.cur_ops = s.cur_ops ++ emitDelta s s2 ∧
    emitDelta s s2 = emitDelta s s1 ++ emitDelta s1 s2 := by
  have e2 : s2.cur_ops = s.cur_ops ++ (emitDelta s s1 ++ emitDelta s1 s2) := by
    rw [o2, o1, List.append_assoc]
  have ed : emitDelta s s2 = emitDelta s s1 ++ emitDelta s1 s2 := by
    calc emitDelta s s2 = List.drop s.cur_ops.length s2.cur_ops := rfl
      _ = emitDelta s s1 ++ emitDelta s1 s2 := by rw [e2, List.drop_left]
  exact ⟨by rw [ed]; exact e2, ed⟩

theorem FirstShape.trans_fs {s s1 s2 : Compiler}
    (h1 : FirstShape s s1) (h2 : FirstShape s1 s2) : FirstShape s s2 := by
  obtain ⟨n1, p1, g1, b1, v1, o1⟩ := h1
  obtain ⟨n2, p2, g2, b2, v2, o2⟩ := h2
  exact ⟨n2.trans n1, p2.trans p1, g2.trans g1, b2.trans b1,
    v1.trans_ve v2, (cur_ops_chain o1 o2).1⟩

/-- Delta of a two-step sequence. -/
theorem emitDelta_trans {s s1 s2 : Compiler}
    (h1 : FirstShape s s1) (h2 : FirstShape s1 s2) :
    emitDelta s s2 = emitDelta s s1 ++ emitDelta s1 s2 :=
  (cur_ops_chain h1.2.2.2.2.2 h2.2.2.2.2.2).2

theorem StateShape.trans_ss {t t1 t2 : Compiler} {d1 d2 : List (Op × Nat)}
    (h1 : StateShape t t1 d1) (h2 : StateShape t1 t2 d2) :
    StateShape t t2 (d1 ++ d2) := by
  obtain ⟨a1, b1, c1, d1', e1, f1, g1⟩ := h1
  obtain ⟨a2, b2, c2, d2', e2, f2, g2⟩ := h2
  refine ⟨a2.trans a1, b2.trans b1, c2.trans c1, d2'.trans d1',
    e2.trans e1, f2.trans f1, ?_⟩
  rw [g2, g1, List.append_assoc]

theorem StateShape.refl_ss (t : Compiler) : StateShape t t [] := by
  refine ⟨rfl, rfl, rfl, rfl, rfl, rfl, by simp⟩

/-- Nonempty blocks survive a `StateShape` step. -/
theorem StateShape.blocks_ne_ss {t t' : Compiler} {d : List (Op × Nat)}
    (h : StateShape t t' d) (hne : t.blocks ≠ []) : t'.blocks ≠ [] := by
  intro hcon
  apply hne
  have := h.2.2.2.2.2.1
  rw [hcon] at this
  simpa using (List.length_eq_zero.mp this.symm)

theorem add_op_props {s : Compiler} {sp : Span} {op : Op} {i : Nat}
    {s' : Compiler} (h : s.add_op sp op = some (i, s')) :
    FirstShape s s' ∧ s'.values = s.values ∧ s'.panic = s.panic ∧
    s'.errors = s.errors ∧ emitDelta s s' = [(op, sp.line)] ∧
    (∀ t : Compiler, t.blocks ≠ [] →
      ∃ (i' : Nat) (t' : Compiler), t.add_op sp op = some (i', t') ∧
        StateShape t t' [(op, sp.line)]) := by
  have main : ∀ (u : Compiler), u.blocks ≠ [] →
      ∃ (i' : Nat) (u' : Compiler), u.add_op sp op = some (i', u') ∧
        StateShape u u' [(op, sp.line)] := by
    intro u hu
    unfold Compiler.add_op
    cases hb : u.blocks.getLast? with
    | none =>
      exact absurd (List.getLast?_eq_none_iff.mp hb) hu
    | some b =>
      refine ⟨b.ops.length, _, rfl, ?_⟩
      have hpos : 0 < u.blocks.length := List.length_pos.mpr hu
      have hlen : (u.blocks.dropLast ++ [(b.add op sp.line).2]).length
          = u.blocks.length := by
        simp [List.length_dropLast]
        omega
      refine ⟨rfl, rfl, rfl, rfl, rfl, hlen, ?_⟩
      show Compiler.cur_ops _ = u.cur_ops ++ [(op, sp.line)]
      unfold Compiler.cur_ops
      simp only [List.getLast?_concat, hb]
      simp [Block.add]
  have hs : s.blocks ≠ [] := by
    intro hcon
    unfold Compiler.add_op at h
    rw [hcon] at h
    simp [List.getLast?] at h
  obtain ⟨i', s'', hrun, hshape⟩ := main s hs
  rw [h] at hrun
  injection hrun with hrun
  injection hrun with hi hs2
  subst hs2
  have hdelta : emitDelta s s' = [(op, sp.line)] := by
    unfold emitDelta
    rw [hshape.2.2.2.2.2.2, List.drop_left]
  have hpe : s'.panic = s.panic ∧ s'.errors = s.errors := by
    unfold Compiler.add_op at h
    cases hb : s.blocks.getLast? with
    | none => rw [hb] at h; simp at h
    | some b =>
      rw [hb] at h
      simp only [Option.some.injEq, Prod.mk.injEq] at h
      rw [← h.2]
      exact ⟨rfl, rfl⟩
  refine ⟨⟨hshape.1, hshape.2.1, hshape.2.2.1, hshape.2.2.2.2.2.1,
    by rw [hshape.2.2.2.2.1]; exact ValuesExt.refl_ve _, ?_⟩,
    hshape.2.2.2.2.1, hpe.1, hpe.2, hdelta, main⟩
  rw [hdelta]
  exact hshape.2.2.2.2.2.2

/-- The opcode/line pairs `un_op`/`bin_op` append for an op list. -/
def opsAt (ops : List Op) (line : Nat) : List (Op × Nat) :=
  ops.map (fun op => (op, line))

theorem FirstShape_of_untouched {s s1 : Compiler}
    (hn : s1.namespaces = s.namespaces)
    (hp : s1.path_to_namespace_id = s.path_to_namespace_id)
    (hg : s1.strings = s.strings)
    (hb : s1.blocks = s.blocks)
    (hv : ValuesExt s.values s1.values) : FirstShape s s1 := by
  have hcur : s1.cur_ops = s.cur_ops := by
    unfold Compiler.cur_ops
    rw [hb]
  refine ⟨hn, hp, hg, by rw [hb], hv, ?_⟩
  unfold emitDelta
  rw [hcur, List.drop_length, List.append_nil]

theorem add_op_list_props {ops : List Op} {sp : Span} {s s' : Compiler}
    (h : s.add_op_list sp ops = some s') :
    FirstShape s s' ∧ s'.values = s.values ∧ s'.panic = s.panic ∧
    s'.errors = s.errors ∧ emitDelta s s' = opsAt ops sp.line ∧
    (∀ t : Compiler, t.blocks ≠ [] →
      ∃ t', t.add_op_list sp ops = some t' ∧
        StateShape t t' (opsAt ops sp.line)) := by
  induction ops generalizing s s' with
  | nil =>
    unfold Compiler.add_op_list at h
    injection h with h
    subst h
    refine ⟨FirstShape.refl_fs s, rfl, rfl, rfl, ?_, ?_⟩
    · unfold emitDelta opsAt
      simp
    · intro t ht
      exact ⟨t, rfl, StateShape.refl_ss t⟩
  | cons op tl ih =>
    unfold Compiler.add_op_list at h
    obtain ⟨r, h1, h2⟩ := Option.bind_eq_some.mp h
    obtain ⟨hfs1, hv1, hp1, he1, hd1, hr1⟩ := add_op_props
      (show _ = some (r.1, r.2) by rw [← h1])
    obtain ⟨hfs2, hv2, hp2, he2, hd2, hr2⟩ := ih h2
    have hdelta : emitDelta s s' = opsAt (op :: tl) sp.line := by
      rw [(cur_ops_chain hfs1.2.2.2.2.2 hfs2.2.2.2.2.2).2, hd1, hd2]
      rfl
    refine ⟨hfs1.trans_fs hfs2, by rw [hv2, hv1], by rw [hp2, hp1],
      by rw [he2, he1], hdelta, ?_⟩
    intro t ht
    obtain ⟨i', t1, hadd, hsh1⟩ := hr1 t ht
    obtain ⟨t2, hlist, hsh2⟩ := hr2 t1 (hsh1.blocks_ne_ss ht)
    refine ⟨t2, ?_, by rw [hdelta] at *; exact hsh1.trans_ss hsh2⟩
    unfold Compiler.add_op_list
    rw [hadd]
    exact hlist

theorem constant_props {s : Compiler} {v : Value} {op : Op} {s1 : Compiler}
    (hrefl : veq v v = true) (h : s.constant v = some (op, s1)) :
    s1.blocks = s.blocks ∧ s1.namespaces = s.namespaces ∧
    s1.path_to_namespace_id = s.path_to_namespace_id ∧
    s1.strings = s.strings ∧ s1.panic = s.panic ∧ s1.errors = s.errors ∧
    ValuesExt s.values s1.values ∧
    (∀ t : Compiler, ValuesExt s1.values t.values →
      t.constant v = some (op, t)) := by
  unfold Compiler.constant at h
  cases hh : hashValue v with
  | none => rw [hh] at h; simp at h
  | some l =>
    rw [hh] at h
    cases hw : lookupValueSlot s.values v with
    | some slot =>
      rw [hw] at h
      simp only [Option.some.injEq, Prod.mk.injEq] at h
      obtain ⟨hop, hs1⟩ := h
      subst hs1
      refine ⟨rfl, rfl, rfl, rfl, rfl, rfl, ValuesExt.refl_ve _, ?_⟩
      intro t hext
      have := hext v slot hw
      unfold Compiler.constant
      rw [hh, this]
      simp [← hop]
    | none =>
      rw [hw] at h
      simp only [Option.some.injEq, Prod.mk.injEq] at h
      obtain ⟨hop, hs1⟩ := h
      subst hs1
      have hlook : lookupValueSlot (s.values ++ [(v, s.constants.length)]) v
          = some s.constants.length := by
        unfold lookupValueSlot at hw ⊢
        cases hf : s.values.find? (fun p => veq v p.1) with
        | some q => rw [hf] at hw; simp at hw
        | none =>
          rw [find?_append_of_none _ _ _ hf]
          simp [List.find?, hrefl]
      refine ⟨rfl, rfl, rfl, rfl, rfl, rfl, ?_, ?_⟩
      · intro w i hwi
        unfold lookupValueSlot at hwi ⊢
        cases hf : s.values.find? (fun p => veq w p.1) with
        | none => rw [hf] at hwi; simp at hwi
        | some q =>
          rw [find?_append_of_some _ _ _ _ hf]
          rw [hf] at hwi
          exact hwi
      · intro t hext
        have := hext v s.constants.length hlook
        unfold Compiler.constant
        rw [hh, this]
        simp [← hop]

theorem compile_error_first {s : Compiler} {line : Nat} {msg : StrT}
    {s' : Compiler} (h : s.compile_error line msg = some s') :
    FirstShape s s' ∧ s'.values = s.values ∧ s'.constants = s.constants := by
  unfold Compiler.compile_error at h
  by_cases hp : s.panic
  · rw [if_pos hp] at h
    injection h with h
    subst h
    exact ⟨FirstShape.refl_fs s, rfl, rfl⟩
  · rw [if_neg hp] at h
    cases hf : s.current_file with
    | none => rw [hf] at h; simp at h
    | some f =>
      rw [hf] at h
      injection h with h
      subst h
      exact ⟨FirstShape_of_untouched rfl rfl rfl rfl (ValuesExt.refl_ve _),
        rfl, rfl⟩

theorem compile_error_replay (t : Compiler) (line : Nat) (msg : StrT)
    (ht : t.blocks ≠ []) :
    ∃ t', t.compile_error line msg = some t' ∧ StateShape t t' [] := by
  unfold Compiler.compile_error
  by_cases hp : t.panic
  · rw [if_pos hp]
    exact ⟨t, rfl, StateShape.refl_ss t⟩
  · rw [if_neg hp]
    cases hf : t.current_file with
    | none =>
      exfalso
      apply ht
      unfold Compiler.current_file at hf
      cases hb : t.blocks.getLast? with
      | none => exact List.getLast?_eq_none_iff.mp hb
      | some b => rw [hb] at hf; simp at hf
    | some f =>
      exact ⟨_, rfl, rfl, rfl, rfl, rfl, rfl, rfl,
        by simp [Compiler.cur_ops]⟩

/-- If a step leaves `blocks` unchanged it appends no opcodes. -/
theorem emitDelta_nil_of_blocks_eq {s s' : Compiler}
    (hb : s'.blocks = s.blocks) : emitDelta s s' = [] := by
  have hc : s'.cur_ops = s.cur_ops := by
    unfold Compiler.cur_ops
    rw [hb]
  unfold emitDelta
  rw [hc, List.drop_length]

theorem push_props {s : Compiler} {v : Value} {sp : Span} {s' : Compiler}
    (hrefl : veq v v = true) (h : s.push v sp = some s') :
    FirstShape s s' ∧ s'.panic = s.panic ∧ s'.errors = s.errors ∧
    Replays (fun t => t.push v sp) s s' := by
  unfold Compiler.push at h
  obtain ⟨r, h1, h2⟩ := Option.bind_eq_some.mp h
  obtain ⟨op1, s1⟩ := r
  obtain ⟨r2, h3, h4⟩ := Option.bind_eq_some.mp h2
  injection h4 with h4
  subst h4
  obtain ⟨cb, cn, cp, cg, cpan, cerr, cve, crep⟩ := constant_props hrefl h1
  obtain ⟨afs, aval, apan, aerr, adel, arep⟩ := add_op_props
    (show _ = some (r2.1, r2.2) by rw [← h3])
  have fs1 : FirstShape s s1 := FirstShape_of_untouched cn cp cg cb cve
  have fs : FirstShape s r2.2 := fs1.trans_fs afs
  have hdelta : emitDelta s r2.2 = [(op1, sp.line)] := by
    rw [(cur_ops_chain fs1.2.2.2.2.2 afs.2.2.2.2.2).2, adel,
      emitDelta_nil_of_blocks_eq cb]
    rfl
  refine ⟨fs, by rw [apan, cpan], by rw [aerr, cerr], ?_⟩
  intro t hns hvext htb
  have hrep := crep t (by rw [← aval]; exact hvext)
  obtain ⟨i', t1, hadd, hsh⟩ := arep t htb
  refine ⟨t1, ?_, by rw [hdelta]; exact hsh⟩
  show t.push v sp = some t1
  simp [Compiler.push, hrep, hadd]

theorem read_props {s : Compiler} {name : StrT} {sp : Span} {s' : Compiler}
    (h : s.read name sp = some s') :
    FirstShape s s' ∧ s'.values = s.values ∧
    Replays (fun t => t.read name sp) s s' := by
  unfold Compiler.read at h
  cases hh : s.namespaces.head? with
  | none => rw [hh] at h; simp at h
  | some ns =>
    rw [hh] at h
    simp only at h
    cases ha : alookup ns name with
    | some nm =>
      cases nm with
      | Slot slot =>
        rw [ha] at h
        simp only at h
        obtain ⟨r, h1, h2⟩ := Option.bind_eq_some.mp h
        injection h2 with h2
        subst h2
        obtain ⟨afs, aval, apan, aerr, adel, arep⟩ := add_op_props
          (show _ = some (r.1, r.2) by rw [← h1])
        refine ⟨afs, aval, ?_⟩
        intro t hns hvext htb
        obtain ⟨i', t1, hadd, hsh⟩ := arep t htb
        refine ⟨t1, ?_, by rw [adel]; exact hsh⟩
        show t.read name sp = some t1
        simp [Compiler.read, hns, hh, ha, hadd]
      | Namespace other =>
        rw [ha] at h
        simp only at h
        obtain ⟨fs, hva, _⟩ := compile_error_first h
        refine ⟨fs, hva, ?_⟩
        intro t hns hvext htb
        obtain ⟨t', hce, hsh⟩ := compile_error_replay t sp.line
          ("No active variable called " ++ name ++ " could be found") htb
        have hblocks : s'.blocks = s.blocks := by
          unfold Compiler.compile_error at h
          by_cases hp : s.panic
          · rw [if_pos hp] at h
            injection h with h
            rw [← h]
          · rw [if_neg hp] at h
            cases hf : s.current_file with
            | none => rw [hf] at h; simp at h
            | some f =>
              rw [hf] at h
              injection h with h
              rw [← h]
        refine ⟨t', ?_, by rw [emitDelta_nil_of_blocks_eq hblocks]; exact hsh⟩
        show t.read name sp = some t'
        simp [Compiler.read, hns, hh, ha, hce]
    | none =>
      rw [ha] at h
      simp only at h
      obtain ⟨fs, hva, _⟩ := compile_error_first h
      refine ⟨fs, hva, ?_⟩
      intro t hns hvext htb
      obtain ⟨t', hce, hsh⟩ := compile_error_replay t sp.line
        ("No active variable called " ++ name ++ " could be found") htb
      have hblocks : s'.blocks = s.blocks := by
        unfold Compiler.compile_error at h
        by_cases hp : s.panic
        · rw [if_pos hp] at h
          injection h with h
          rw [← h]
        · rw [if_neg hp] at h
          cases hf : s.current_file with
          | none => rw [hf] at h; simp at h
          | some f =>
            rw [hf] at h
            injection h with h
            rw [← h]
      refine ⟨t', ?_, by rw [emitDelta_nil_of_blocks_eq hblocks]; exact hsh⟩
      show t.read name sp = some t'
      simp [Compiler.read, hns, hh, ha, hce]

theorem set_props {s : Compiler} {name : StrT} {sp : Span} {s' : Compiler}
    (h : s.set name sp = some s') :
    FirstShape s s' ∧ s'.values = s.values ∧
    Replays (fun t => t.set name sp) s s' := by
  unfold Compiler.set at h
  cases hh : s.namespaces.head? with
  | none => rw [hh] at h; simp at h
  | some ns =>
    rw [hh] at h
    simp only at h
    cases ha : alookup ns name with
    | some nm =>
      cases nm with
      | Slot slot =>
        rw [ha] at h
        simp only at h
        obtain ⟨r, h1, h2⟩ := Option.bind_eq_some.mp h
        injection h2 with h2
        subst h2
        obtain ⟨afs, aval, apan, aerr, adel, arep⟩ := add_op_props
          (show _ = some (r.1, r.2) by rw [← h1])
        refine ⟨afs, aval, ?_⟩
        intro t hns hvext htb
        obtain ⟨i', t1, hadd, hsh⟩ := arep t htb
        refine ⟨t1, ?_, by rw [adel]; exact hsh⟩
        show t.set name sp = some t1
        simp [Compiler.set, hns, hh, ha, hadd]
      | Namespace other =>
        rw [ha] at h
        simp only at h
        obtain ⟨fs, hva, _⟩ := compile_error_first h
        refine ⟨fs, hva, ?_⟩
        intro t hns hvext htb
        obtain ⟨t', hce, hsh⟩ := compile_error_replay t sp.line
          ("No active variable called " ++ name ++ " could be found") htb
        have hblocks : s'.blocks = s.blocks := by
          unfold Compiler.compile_error at h
          by_cases hp : s.panic
          · rw [if_pos hp] at h
            injection h with h
            rw [← h]
          · rw [if_neg hp] at h
            cases hf : s.current_file with
            | none => rw [hf] at h; simp at h
            | some f =>
              rw [hf] at h
              injection h with h
              rw [← h]
        refine ⟨t', ?_, by rw [emitDelta_nil_of_blocks_eq hblocks]; exact hsh⟩
        show t.set name sp = some t'
        simp [Compiler.set, hns, hh, ha, hce]
    | none =>
      rw [ha] at h
      simp only at h
      obtain ⟨fs, hva, _⟩ := compile_error_first h
      refine ⟨fs, hva, ?_⟩
      intro t hns hvext htb
      obtain ⟨t', hce, hsh⟩ := compile_error_replay t sp.line
        ("No active variable called " ++ name ++ " could be found") htb
      have hblocks : s'.blocks = s.blocks := by
        unfold Compiler.compile_error at h
        by_cases hp : s.panic
        · rw [if_pos hp] at h
          injection h with h
          rw [← h]
        · rw [if_neg hp] at h
          cases hf : s.current_file with
          | none => rw [hf] at h; simp at h
          | some f =>
            rw [hf] at h
            injection h with h
            rw [← h]
      refine ⟨t', ?_, by rw [emitDelta_nil_of_blocks_eq hblocks]; exact hsh⟩
      show t.set name sp = some t'
      simp [Compiler.set, hns, hh, ha, hce]

theorem replays_congr {f g : Compiler → Option Compiler} {s s' : Compiler}
    (h : ∀ t, g t = f t) (R : Replays f s s') : Replays g s s' := by
  intro t hns hv htb
  obtain ⟨t', ht', sh⟩ := R t hns hv htb
  refine ⟨t', ?_, sh⟩
  rw [h t]
  exact ht'

/-- Sequencing two replayable emission steps. -/
theorem replays_bind {f1 f2 : Compiler → Option Compiler} {s s1 s2 : Compiler}
    (F1 : FirstShape s s1) (R1 : Replays f1 s s1)
    (F2 : FirstShape s1 s2) (R2 : Replays f2 s1 s2) :
    FirstShape s s2 ∧ Replays (fun t => (f1 t).bind f2) s s2 := by
  refine ⟨F1.trans_fs F2, ?_⟩
  intro t hns hvext htb
  obtain ⟨t1, h1, sh1⟩ := R1 t hns (ValuesExt.trans_ve F2.2.2.2.2.1 hvext) htb
  have hns1 : t1.namespaces = s1.namespaces := by
    rw [sh1.1, hns, F1.1]
  have hv1 : ValuesExt s2.values t1.values := by
    rw [sh1.2.2.2.2.1]
    exact hvext
  obtain ⟨t2, h2, sh2⟩ := R2 t1 hns1 hv1 (sh1.blocks_ne_ss htb)
  refine ⟨t2, ?_, ?_⟩
  · show (f1 t).bind f2 = some t2
    rw [h1]
    exact h2
  · rw [emitDelta_trans F1 F2]
    exact sh1.trans_ss sh2

/-- The `let r ← s.add_op ..; some r.2` tail used all over the
emission functions, as a replayable step. -/
theorem add_op_step_props {s : Compiler} {sp : Span} {op : Op}
    {s' : Compiler}
    (h : (s.add_op sp op).bind (fun r => some r.2) = some s') :
    FirstShape s s' ∧ s'.values = s.values ∧ s'.panic = s.panic ∧
    s'.errors = s.errors ∧ emitDelta s s' = [(op, sp.line)] ∧
    Replays (fun t => (t.add_op sp op).bind (fun r => some r.2)) s s' := by
  obtain ⟨r, h1, h2⟩ := Option.bind_eq_some.mp h
  injection h2 with h2
  subst h2
  obtain ⟨fs, hv, hp, he, hd, hrep⟩ := add_op_props
    (show _ = some (r.1, r.2) by rw [← h1])
  refine ⟨fs, hv, hp, he, hd, ?_⟩
  intro t hns hvx htb
  obtain ⟨i', t', hadd, hsh⟩ := hrep t htb
  refine ⟨t', ?_, by rw [hd]; exact hsh⟩
  show (t.add_op sp op).bind (fun r => some r.2) = some t'
  rw [hadd]
  rfl

/-- `add_op_list` as a replayable step. -/
theorem add_op_list_step {ops : List Op} {sp : Span} {s s' : Compiler}
    (h : s.add_op_list sp ops = some s') :
    FirstShape s s' ∧ Replays (fun t => t.add_op_list sp ops) s s' := by
  obtain ⟨fs, hv, hp, he, hd, hrep⟩ := add_op_list_props h
  refine ⟨fs, ?_⟩
  intro t hns hvx htb
  obtain ⟨t', hl, hsh⟩ := hrep t htb
  exact ⟨t', hl, by rw [hd]; exact hsh⟩

/-- A successful `push` of a float means the float was finite. -/
theorem push_float_finite {s : Compiler} {a : F64} {sp : Span}
    {s' : Compiler} (h : s.push (.Float a) sp = some s') :
    a.is_finite = true := by
  by_cases hf : a.is_finite
  · exact hf
  · exfalso
    unfold Compiler.push Compiler.constant at h
    have hh : hashValue (.Float a) = none := by
      simp [hashValue, hf]
    rw [hh] at h
    simp at h

theorem veq_refl_float {a : F64} (h : a.is_finite = true) :
    veq (.Float a) (.Float a) = true := by
  cases a with
  | finite b => simp [veq, F64.feq]
  | inf => simp [veq, F64.feq]
  | neginf => simp [veq, F64.feq]
  | nan => simp [F64.is_finite] at h

mutual
theorem assignable_replay : ∀ (a : Assignable) (s s' : Compiler),
    Compiler.assignable a s = some s' →
    FirstShape s s' ∧ Replays (Compiler.assignable a) s s'
  | .mk sp (.Read ident), s, s', h => by
    simp only [Compiler.assignable] at h
    obtain ⟨fs, _, rep⟩ := read_props h
    exact ⟨fs, replays_congr (fun t => by simp only [Compiler.assignable]) rep⟩
  | .mk sp (.Call f args), s, s', h => by
    simp only [Compiler.assignable] at h
    obtain ⟨s1, h1, h2⟩ := Option.bind_eq_some.mp h
    obtain ⟨s2, h3, h4⟩ := Option.bind_eq_some.mp h2
    obtain ⟨F1, R1⟩ := assignable_replay f s s1 h1
    obtain ⟨F2, R2⟩ := expr_iter_replay args s1 s2 h3
    obtain ⟨F3, _, _, _, _, R3⟩ := add_op_step_props h4
    obtain ⟨F12, R12⟩ := replays_bind F1 R1 F2 R2
    obtain ⟨F123, R123⟩ := replays_bind F12 R12 F3 R3
    refine ⟨F123, replays_congr ?_ R123⟩
    intro t
    simp only [Compiler.assignable]
    cases Compiler.assignable f t with
    | none => rfl
    | some u =>
      cases Compiler.expr_iter args u with
      | none => rfl
      | some w => rfl
  | .mk sp (.Access x y), s, s', h => by
    simp only [Compiler.assignable] at h
    obtain ⟨s1, h1, h2⟩ := Option.bind_eq_some.mp h
    obtain ⟨F1, R1⟩ := assignable_replay x s s1 h1
    obtain ⟨F2, R2⟩ := assignable_replay y s1 s' h2
    obtain ⟨F12, R12⟩ := replays_bind F1 R1 F2 R2
    refine ⟨F12, replays_congr ?_ R12⟩
    intro t
    simp only [Compiler.assignable]
    rfl
  | .mk sp (.Index x b), s, s', h => by
    simp only [Compiler.assignable] at h
    obtain ⟨s1, h1, h2⟩ := Option.bind_eq_some.mp h
    obtain ⟨s2, h3, h4⟩ := Option.bind_eq_some.mp h2
    obtain ⟨F1, R1⟩ := assignable_replay x s s1 h1
    obtain ⟨F2, R2⟩ := expression_replay b s1 s2 h3
    obtain ⟨F3, _, _, _, _, R3⟩ := add_op_step_props h4
    obtain ⟨F12, R12⟩ := replays_bind F1 R1 F2 R2
    obtain ⟨F123, R123⟩ := replays_bind F12 R12 F3 R3
    refine ⟨F123, replays_congr ?_ R123⟩
    intro t
    simp only [Compiler.assignable]
    cases Compiler.assignable x t with
    | none => rfl
    | some u =>
      cases Compiler.expression b u with
      | none => rfl
      | some w => rfl
termination_by a => sizeOf a
decreasing_by all_goals (simp_wf <;> omega)

theorem un_op_replay : ∀ (a : Expression) (ops : List Op) (sp : Span)
    (s s' : Compiler), Compiler.un_op a ops sp s = some s' →
    FirstShape s s' ∧ Replays (Compiler.un_op a ops sp) s s'
  | a, ops, sp, s, s', h => by
    simp only [Compiler.un_op] at h
    obtain ⟨s1, h1, h2⟩ := Option.bind_eq_some.mp h
    obtain ⟨F1, R1⟩ := expression_replay a s s1 h1
    obtain ⟨F2, R2⟩ := add_op_list_step h2
    obtain ⟨F12, R12⟩ := replays_bind F1 R1 F2 R2
    refine ⟨F12, replays_congr ?_ R12⟩
    intro t
    simp only [Compiler.un_op]
    rfl
termination_by a => sizeOf a + 1
decreasing_by all_goals (simp_wf <;> omega)

theorem bin_op_replay : ∀ (a b : Expression) (ops : List Op) (sp : Span)
    (s s' : Compiler), Compiler.bin_op a b ops sp s = some s' →
    FirstShape s s' ∧ Replays (Compiler.bin_op a b ops sp) s s'
  | a, b, ops, sp, s, s', h => by
    simp only [Compiler.bin_op] at h
    obtain ⟨s1, h1, h2⟩ := Option.bind_eq_some.mp h
    obtain ⟨s2, h3, h4⟩ := Option.bind_eq_some.mp h2
    obtain ⟨F1, R1⟩ := expression_replay a s s1 h1
    obtain ⟨F2, R2⟩ := expression_replay b s1 s2 h3
    obtain ⟨F3, R3⟩ := add_op_list_step h4
    obtain ⟨F12, R12⟩ := replays_bind F1 R1 F2 R2
    obtain ⟨F123, R123⟩ := replays_bind F12 R12 F3 R3
    refine ⟨F123, replays_congr ?_ R123⟩
    intro t
    simp only [Compiler.bin_op]
    cases Compiler.expression a t with
    | none => rfl
    | some u =>
      cases Compiler.expression b u with
      | none => rfl
      | some w => rfl
termination_by a b => sizeOf a + sizeOf b + 1
decreasing_by all_goals (simp_wf <;> omega)

theorem expression_replay : ∀ (e : Expression) (s s' : Compiler),
    Compiler.expression e s = some s' →
    FirstShape s s' ∧ Replays (Compiler.expression e) s s'
  | .mk sp (.Get a), s, s', h => by
    simp only [Compiler.expression] at h
    obtain ⟨fs, rep⟩ := assignable_replay a s s' h
    exact ⟨fs, replays_congr (fun t => by simp only [Compiler.expression]) rep⟩
  | .mk sp (.Add a b), s, s', h => by
    simp only [Compiler.expression] at h
    obtain ⟨fs, rep⟩ := bin_op_replay a b [.Add] sp s s' h
    exact ⟨fs, replays_congr (fun t => by simp only [Compiler.expression]) rep⟩
  | .mk sp (.Sub a b), s, s', h => by
    simp only [Compiler.expression] at h
    obtain ⟨fs, rep⟩ := bin_op_replay a b [.Sub] sp s s' h
    exact ⟨fs, replays_congr (fun t => by simp only [Compiler.expression]) rep⟩
  | .mk sp (.Mul a b), s, s', h => by
    simp only [Compiler.expression] at h
    obtain ⟨fs, rep⟩ := bin_op_replay a b [.Mul] sp s s' h
    exact ⟨fs, replays_congr (fun t => by simp only [Compiler.expression]) rep⟩
  | .mk sp (.Div a b), s, s', h => by
    simp only [Compiler.expression] at h
    obtain ⟨fs, rep⟩ := bin_op_replay a b [.Div] sp s s' h
    exact ⟨fs, replays_congr (fun t => by simp only [Compiler.expression]) rep⟩
  | .mk sp (.Eq a b), s, s', h => by
    simp only [Compiler.expression] at h
    obtain ⟨fs, rep⟩ := bin_op_replay a b [.Equal] sp s s' h
    exact ⟨fs, replays_congr (fun t => by simp only [Compiler.expression]) rep⟩
  | .mk sp (.Neq a b), s, s', h => by
    simp only [Compiler.expression] at h
    obtain ⟨fs, rep⟩ := bin_op_replay a b [.Equal, .Not] sp s s' h
    exact ⟨fs, replays_congr (fun t => by simp only [Compiler.expression]) rep⟩
  | .mk sp (.Gt a b), s, s', h => by
    simp only [Compiler.expression] at h
    obtain ⟨fs, rep⟩ := bin_op_replay a b [.Greater] sp s s' h
    exact ⟨fs, replays_congr (fun t => by simp only [Compiler.expression]) rep⟩
  | .mk sp (.Gteq a b), s, s', h => by
    simp only [Compiler.expression] at h
    obtain ⟨fs, rep⟩ := bin_op_replay a b [.Less, .Not] sp s s' h
    exact ⟨fs, replays_congr (fun t => by simp only [Compiler.expression]) rep⟩
  | .mk sp (.Lt a b), s, s', h => by
    simp only [Compiler.expression] at h
    obtain ⟨fs, rep⟩ := bin_op_replay a b [.Less] sp s s' h
    exact ⟨fs, replays_congr (fun t => by simp only [Compiler.expression]) rep⟩
  | .mk sp (.Lteq a b), s, s', h => by
    simp only [Compiler.expression] at h
    obtain ⟨fs, rep⟩ := bin_op_replay a b [.Greater, .Not] sp s s' h
    exact ⟨fs, replays_congr (fun t => by simp only [Compiler.expression]) rep⟩
  | .mk sp (.AssertEq a b), s, s', h => by
    simp only [Compiler.expression] at h
    obtain ⟨fs, rep⟩ := bin_op_replay a b [.Equal, .Assert] sp s s' h
    exact ⟨fs, replays_congr (fun t => by simp only [Compiler.expression]) rep⟩
  | .mk sp (.Neg a), s, s', h => by
    simp only [Compiler.expression] at h
    obtain ⟨fs, rep⟩ := un_op_replay a [.Neg] sp s s' h
    exact ⟨fs, replays_congr (fun t => by simp only [Compiler.expression]) rep⟩
  | .mk sp (.In a b), s, s', h => by
    simp only [Compiler.expression] at h
    obtain ⟨fs, rep⟩ := bin_op_replay a b [.Contains] sp s s' h
    exact ⟨fs, replays_congr (fun t => by simp only [Compiler.expression]) rep⟩
  | .mk sp (.And a b), s, s', h => by
    simp only [Compiler.expression] at h
    obtain ⟨fs, rep⟩ := bin_op_replay a b [.And] sp s s' h
    exact ⟨fs, replays_congr (fun t => by simp only [Compiler.expression]) rep⟩
  | .mk sp (.Or a b), s, s', h => by
    simp only [Compiler.expression] at h
    obtain ⟨fs, rep⟩ := bin_op_replay a b [.Or] sp s s' h
    exact ⟨fs, replays_congr (fun t => by simp only [Compiler.expression]) rep⟩
  | .mk sp (.Not a), s, s', h => by
    simp only [Compiler.expression] at h
    obtain ⟨fs, rep⟩ := un_op_replay a [.Neg] sp s s' h
    exact ⟨fs, replays_congr (fun t => by simp only [Compiler.expression]) rep⟩
  | .mk sp (.Tuple xs), s, s', h => by
    simp only [Compiler.expression] at h
    obtain ⟨s1, h1, h2⟩ := Option.bind_eq_some.mp h
    obtain ⟨F1, R1⟩ := expr_iter_replay xs s s1 h1
    obtain ⟨F2, _, _, _, _, R2⟩ := add_op_step_props h2
    obtain ⟨F12, R12⟩ := replays_bind F1 R1 F2 R2
    refine ⟨F12, replays_congr ?_ R12⟩
    intro t
    simp only [Compiler.expression]
    rfl
  | .mk sp (.List xs), s, s', h => by
    simp only [Compiler.expression] at h
    obtain ⟨s1, h1, h2⟩ := Option.bind_eq_some.mp h
    obtain ⟨F1, R1⟩ := expr_iter_replay xs s s1 h1
    obtain ⟨F2, _, _, _, _, R2⟩ := add_op_step_props h2
    obtain ⟨F12, R12⟩ := replays_bind F1 R1 F2 R2
    refine ⟨F12, replays_congr ?_ R12⟩
    intro t
    simp only [Compiler.expression]
    rfl
  | .mk sp (.Set xs), s, s', h => by
    simp only [Compiler.expression] at h
    obtain ⟨s1, h1, h2⟩ := Option.bind_eq_some.mp h
    obtain ⟨F1, R1⟩ := expr_iter_replay xs s s1 h1
    obtain ⟨F2, _, _, _, _, R2⟩ := add_op_step_props h2
    obtain ⟨F12, R12⟩ := replays_bind F1 R1 F2 R2
    refine ⟨F12, replays_congr ?_ R12⟩
    intro t
    simp only [Compiler.expression]
    rfl
  | .mk sp (.Dict xs), s, s', h => by
    simp only [Compiler.expression] at h
    obtain ⟨s1, h1, h2⟩ := Option.bind_eq_some.mp h
    obtain ⟨F1, R1⟩ := expr_iter_replay xs s s1 h1
    obtain ⟨F2, _, _, _, _, R2⟩ := add_op_step_props h2
    obtain ⟨F12, R12⟩ := replays_bind F1 R1 F2 R2
    refine ⟨F12, replays_congr ?_ R12⟩
    intro t
    simp only [Compiler.expression]
    rfl
  | .mk sp (.Float a), s, s', h => by
    simp only [Compiler.expression] at h
    have hfin := push_float_finite h
    obtain ⟨fs, _, _, rep⟩ := push_props (veq_refl_float hfin) h
    exact ⟨fs, replays_congr (fun t => by simp only [Compiler.expression]) rep⟩
  | .mk sp (.Bool a), s, s', h => by
    simp only [Compiler.expression] at h
    obtain ⟨fs, _, _, rep⟩ := push_props (by simp [veq]) h
    exact ⟨fs, replays_congr (fun t => by simp only [Compiler.expression]) rep⟩
  | .mk sp (.Int a), s, s', h => by
    simp only [Compiler.expression] at h
    obtain ⟨fs, _, _, rep⟩ := push_props (by simp [veq]) h
    exact ⟨fs, replays_congr (fun t => by simp only [Compiler.expression]) rep⟩
  | .mk sp (.Str a), s, s', h => by
    simp only [Compiler.expression] at h
    obtain ⟨fs, _, _, rep⟩ := push_props (by simp [veq]) h
    exact ⟨fs, replays_congr (fun t => by simp only [Compiler.expression]) rep⟩
  | .mk sp .Nil, s, s', h => by
    simp only [Compiler.expression] at h
    obtain ⟨fs, _, _, rep⟩ := push_props (by simp [veq]) h
    exact ⟨fs, replays_congr (fun t => by simp only [Compiler.expression]) rep⟩
  | .mk sp (.Function name params ret body), s, s', h => by
    simp only [Compiler.expression] at h
    exact absurd h (by simp)
  | .mk sp (.Instance blob fields), s, s', h => by
    simp only [Compiler.expression] at h
    exact absurd h (by simp)
termination_by e => sizeOf e
decreasing_by all_goals (simp_wf <;> omega)

theorem expr_iter_replay : ∀ (l : ExprList) (s s' : Compiler),
    Compiler.expr_iter l s = some s' →
    FirstShape s s' ∧ Replays (Compiler.expr_iter l) s s'
  | .nil, s, s', h => by
    simp only [Compiler.expr_iter] at h
    injection h with h
    subst h
    refine ⟨FirstShape.refl_fs s, ?_⟩
    intro t hns hv htb
    refine ⟨t, by simp only [Compiler.expr_iter], ?_⟩
    rw [emitDelta_nil_of_blocks_eq rfl]
    exact StateShape.refl_ss t
  | .cons e tl, s, s', h => by
    simp only [Compiler.expr_iter] at h
    obtain ⟨s1, h1, h2⟩ := Option.bind_eq_some.mp h
    obtain ⟨F1, R1⟩ := expression_replay e s s1 h1
    obtain ⟨F2, R2⟩ := expr_iter_replay tl s1 s' h2
    obtain ⟨F12, R12⟩ := replays_bind F1 R1 F2 R2
    refine ⟨F12, replays_congr ?_ R12⟩
    intro t
    simp only [Compiler.expr_iter]
    rfl
termination_by l => sizeOf l
decreasing_by all_goals (simp_wf <;> omega)
end

/-- `add_op` always succeeds when a block exists. -/
theorem add_op_total (u : Compiler) (sp : Span) (op : Op)
    (hu : u.blocks ≠ []) :
    ∃ (i' : Nat) (u' : Compiler), u.add_op sp op = some (i', u') ∧
      StateShape u u' [(op, sp.line)] := by
  unfold Compiler.add_op
  cases hb : u.blocks.getLast? with
  | none => exact absurd (List.getLast?_eq_none_iff.mp hb) hu
  | some b =>
    refine ⟨b.ops.length, _, rfl, ?_⟩
    have hpos : 0 < u.blocks.length := List.length_pos.mpr hu
    have hlen : (u.blocks.dropLast ++ [(b.add op sp.line).2]).length
        = u.blocks.length := by
      simp [List.length_dropLast]
      omega
    refine ⟨rfl, rfl, rfl, rfl, rfl, hlen, ?_⟩
    show Compiler.cur_ops _ = u.cur_ops ++ [(op, sp.line)]
    unfold Compiler.cur_ops
    simp only [List.getLast?_concat, hb]
    simp [Block.add]

/-- Nonempty blocks survive an emission step. -/
theorem FirstShape.blocks_ne_fs {s s' : Compiler} (h : FirstShape s s')
    (hs : s.blocks ≠ []) : s'.blocks ≠ [] := by
  intro hcon
  apply hs
  have := h.2.2.2.1
  rw [hcon] at this
  exact List.length_eq_zero.mp this.symm

/-- C9: compiling an assignment statement emits the opcodes of the
right-hand-side value expression twice.  For a `Read` target the
emitted sequence is `code(e) ++ [AssignGlobal slot] ++ code(e)`;
for an `Index` target it is `code(a) ++ code(b) ++ code(e) ++
[AssignIndex] ++ code(e)` — in both cases the per-target-kind arm
emits the value once and the unconditional `self.expression(value)`
after the `match` emits it a second time, with identical opcodes
(constant interning makes the second pass hit the same pool slots). -/
theorem claim_C9_assignment_double_emission :
    (∀ (sp tsp : Span) (k : AssignOpKind) (ident : Identifier)
        (e : Expression) (s s1 : Compiler) (ns : List (StrT × Name))
        (slot : Nat),
      Compiler.expression e s = some s1 →
      s.namespaces.head? = some ns →
      alookup ns ident.name = some (.Slot slot) →
      s.blocks ≠ [] →
      ∃ s2, Compiler.statement
          (.mk sp (.Assignment k (.mk tsp (.Read ident)) e)) s = some s2 ∧
        s2.cur_ops = s.cur_ops ++ emitDelta s s1 ++
          [(.AssignGlobal slot, sp.line)] ++ emitDelta s s1)
  ∧ (∀ (sp tsp : Span) (k : AssignOpKind) (a : Assignable)
        (b e : Expression) (s sa sb s1 : Compiler),
      Compiler.assignable a s = some sa →
      Compiler.expression b sa = some sb →
      Compiler.expression e sb = some s1 →
      s.blocks ≠ [] →
      ∃ s2, Compiler.statement
          (.mk sp (.Assignment k (.mk tsp (.Index a b)) e)) s = some s2 ∧
        s2.cur_ops = s.cur_ops ++ emitDelta s sa ++ emitDelta sa sb ++
          emitDelta sb s1 ++ [(.AssignIndex, sp.line)] ++
          emitDelta sb s1) := by
  constructor
  · intro sp tsp k ident e s s1 ns slot hexpr hns hlook hsb
    obtain ⟨FS, REP⟩ := expression_replay e s s1 hexpr
    have hs1b : s1.blocks ≠ [] := FS.blocks_ne_fs hsb
    obtain ⟨i, s1', hadd, hsh1⟩ := add_op_total s1 sp (.AssignGlobal slot) hs1b
    have hset : s1.set ident.name sp = some s1' := by
      have hns1 : s1.namespaces.head? = some ns := by rw [FS.1, hns]
      simp [Compiler.set, hns1, hlook, hadd]
    obtain ⟨s2, hrun2, hsh2⟩ := REP s1'
      (by rw [hsh1.1, FS.1])
      (by rw [hsh1.2.2.2.2.1]; exact ValuesExt.refl_ve _)
      (hsh1.blocks_ne_ss hs1b)
    refine ⟨s2, ?_, ?_⟩
    · simp [Compiler.statement, hexpr, hset, hrun2]
    · rw [hsh2.2.2.2.2.2.2, hsh1.2.2.2.2.2.2, FS.2.2.2.2.2]
      try simp [List.append_assoc]
  · intro sp tsp k a b e s sa sb s1 hassign hb hexpr hsb
    obtain ⟨FSa, _⟩ := assignable_replay a s sa hassign
    obtain ⟨FSb, _⟩ := expression_replay b sa sb hb
    obtain ⟨FSe, REP⟩ := expression_replay e sb s1 hexpr
    have hs1b : s1.blocks ≠ [] :=
      FSe.blocks_ne_fs (FSb.blocks_ne_fs (FSa.blocks_ne_fs hsb))
    obtain ⟨i, s1', hadd, hsh1⟩ := add_op_total s1 sp .AssignIndex hs1b
    obtain ⟨s2, hrun2, hsh2⟩ := REP s1'
      (by rw [hsh1.1, FSe.1])
      (by rw [hsh1.2.2.2.2.1]; exact ValuesExt.refl_ve _)
      (hsh1.blocks_ne_ss hs1b)
    refine ⟨s2, ?_, ?_⟩
    · simp [Compiler.statement, hassign, hb, hexpr, hadd, hrun2]
    · rw [hsh2.2.2.2.2.2.2, hsh1.2.2.2.2.2.2, FSe.2.2.2.2.2,
        FSb.2.2.2.2.2, FSa.2.2.2.2.2]
      try simp [List.append_assoc]

/-- A compiler state with one block and a namespace binding `x` to
global slot 1. -/
def c9State : Compiler :=
  { Compiler.new with blocks := [Block.new "main" "main"],
                      namespaces := [[("x", .Slot 1)]] }

/-- Witness for C9: the Read-target part applied to `x = 5`. -/
theorem claim_C9_witness :
    ∃ s2, Compiler.statement
        (.mk { line := 1 } (.Assignment .Plain
          (.mk { line := 1 } (.Read { span := { line := 1 }, name := "x" }))
          (.mk { line := 1 } (.Int 5)))) c9State = some s2 ∧
      s2.cur_ops = c9State.cur_ops ++
        emitDelta c9State
          { c9State with
              blocks := [{ Block.new "main" "main" with
                ops := [(.Constant 0, 1)] }],
              values := [(.Int 5, 0)], constants := [.Int 5] } ++
        [(.AssignGlobal 1, 1)] ++
        emitDelta c9State
          { c9State with
              blocks := [{ Block.new "main" "main" with
                ops := [(.Constant 0, 1)] }],
              values := [(.Int 5, 0)], constants := [.Int 5] } :=
  claim_C9_assignment_double_emission.1 { line := 1 } { line := 1 } .Plain
    { span := { line := 1 }, name := "x" } (.mk { line := 1 } (.Int 5))
    c9State _ [("x", .Slot 1)] 1
    (by simp [Compiler.expression, Compiler.push, Compiler.constant,
      hashValue, lookupValueSlot, Compiler.add_op, Block.add, Block.new,
      Compiler.new, c9State, List.find?])
    (by simp [c9State, Compiler.new])
    (by simp [alookup, List.find?])
    (by simp [c9State, Compiler.new])

/-- The sticky-panic invariant: either no error was recorded and the
panic flag is clear, or the flag is set and exactly one
`CompileError` was recorded. -/
def ErrInv (s : Compiler) : Prop :=
  (s.panic = false ∧ s.errors = []) ∨
  (s.panic = true ∧ ∃ f l m, s.errors = [Error.CompileError f l m])

/-- What every compiler operation guarantees about the error state:
the panic flag is never cleared, errors are only appended, and the
sticky-panic invariant is preserved. -/
def ErrStep (s s' : Compiler) : Prop :=
  (s.panic = true → s'.panic = true) ∧
  s.errors <+: s'.errors ∧
  (ErrInv s → ErrInv s')

theorem ErrStep.refl_es (s : Compiler) : ErrStep s s :=
  ⟨fun h => h, List.prefix_refl _, fun h => h⟩

theorem ErrStep.trans_es {s s1 s2 : Compiler} (h1 : ErrStep s s1)
    (h2 : ErrStep s1 s2) : ErrStep s s2 :=
  ⟨fun h => h2.1 (h1.1 h), h1.2.1.trans h2.2.1, fun h => h2.2.2 (h1.2.2 h)⟩

/-- An operation leaving panic and errors untouched is an `ErrStep`. -/
theorem ErrStep.of_eq {s s' : Compiler} (hp : s'.panic = s.panic)
    (he : s'.errors = s.errors) : ErrStep s s' :=
  ⟨fun h => by rw [hp, h], by rw [he], fun h => by
    unfold ErrInv at *
    rw [hp, he]
    exact h⟩

theorem compile_error_errstep {s : Compiler} {l : Nat} {m : StrT}
    {s' : Compiler} (h : s.compile_error l m = some s') : ErrStep s s' := by
  unfold Compiler.compile_error at h
  by_cases hp : s.panic
  · rw [if_pos hp] at h
    injection h with h
    subst h
    exact ErrStep.refl_es s
  · rw [if_neg hp] at h
    cases hf : s.current_file with
    | none => rw [hf] at h; simp at h
    | some f =>
      rw [hf] at h
      injection h with h
      subst h
      refine ⟨fun hcon => absurd hcon hp, by simp, ?_⟩
      intro hinv
      cases hinv with
      | inl he =>
        right
        refine ⟨rfl, f, l, some m, ?_⟩
        simp [he.2]
      | inr he => exact absurd he.1 hp

theorem constant_errstep {s : Compiler} {v : Value} {op : Op}
    {s1 : Compiler} (h : s.constant v = some (op, s1)) : ErrStep s s1 := by
  unfold Compiler.constant at h
  cases hh : hashValue v with
  | none => rw [hh] at h; simp at h
  | some l =>
    rw [hh] at h
    cases hw : lookupValueSlot s.values v with
    | some slot =>
      rw [hw] at h
      simp only [Option.some.injEq, Prod.mk.injEq] at h
      rw [← h.2]
      exact ErrStep.refl_es s
    | none =>
      rw [hw] at h
      simp only [Option.some.injEq, Prod.mk.injEq] at h
      rw [← h.2]
      exact ErrStep.of_eq rfl rfl

theorem add_op_errstep {s : Compiler} {sp : Span} {op : Op}
    {r : Nat × Compiler} (h : s.add_op sp op = some r) : ErrStep s r.2 := by
  obtain ⟨_, _, hp, he, _, _⟩ := add_op_props
    (show _ = some (r.1, r.2) by rw [← h])
  exact ErrStep.of_eq hp he

theorem add_op_list_errstep {ops : List Op} {sp : Span} {s s' : Compiler}
    (h : s.add_op_list sp ops = some s') : ErrStep s s' := by
  obtain ⟨_, _, hp, he, _, _⟩ := add_op_list_props h
  exact ErrStep.of_eq hp he

theorem read_errstep {s : Compiler} {name : StrT} {sp : Span}
    {s' : Compiler} (h : s.read name sp = some s') : ErrStep s s' := by
  unfold Compiler.read at h
  cases hh : s.namespaces.head? with
  | none => rw [hh] at h; simp at h
  | some ns =>
    rw [hh] at h
    simp only at h
    cases ha : alookup ns name with
    | some nm =>
      cases nm with
      | Slot slot =>
        rw [ha] at h
        simp only at h
        obtain ⟨r, h1, h2⟩ := Option.bind_eq_some.mp h
        injection h2 with h2
        subst h2
        exact add_op_errstep h1
      | Namespace other =>
        rw [ha] at h
        simp only at h
        exact compile_error_errstep h
    | none =>
      rw [ha] at h
      simp only at h
      exact compile_error_errstep h

theorem set_errstep {s : Compiler} {name : StrT} {sp : Span}
    {s' : Compiler} (h : s.set name sp = some s') : ErrStep s s' := by
  unfold Compiler.set at h
  cases hh : s.namespaces.head? with
  | none => rw [hh] at h; simp at h
  | some ns =>
    rw [hh] at h
    simp only at h
    cases ha : alookup ns name with
    | some nm =>
      cases nm with
      | Slot slot =>
        rw [ha] at h
        simp only at h
        obtain ⟨r, h1, h2⟩ := Option.bind_eq_some.mp h
        injection h2 with h2
        subst h2
        exact add_op_errstep h1
      | Namespace other =>
        rw [ha] at h
        simp only at h
        exact compile_error_errstep h
    | none =>
      rw [ha] at h
      simp only at h
      exact compile_error_errstep h

theorem push_errstep {s : Compiler} {v : Value} {sp : Span}
    {s' : Compiler} (h : s.push v sp = some s') : ErrStep s s' := by
  unfold Compiler.push at h
  obtain ⟨r, h1, h2⟩ := Option.bind_eq_some.mp h
  obtain ⟨op1, s1⟩ := r
  obtain ⟨r2, h3, h4⟩ := Option.bind_eq_some.mp h2
  injection h4 with h4
  subst h4
  exact (constant_errstep h1).trans_es (add_op_errstep h3)

mutual
theorem assignable_errstep : ∀ (a : Assignable) (s s' : Compiler),
    Compiler.assignable a s = some s' → ErrStep s s'
  | .mk sp (.Read ident), s, s', h => by
    simp only [Compiler.assignable] at h
    exact read_errstep h
  | .mk sp (.Call f args), s, s', h => by
    simp only [Compiler.assignable] at h
    obtain ⟨s1, h1, h2⟩ := Option.bind_eq_some.mp h
    obtain ⟨s2, h3, h4⟩ := Option.bind_eq_some.mp h2
    obtain ⟨r, h5, h6⟩ := Option.bind_eq_some.mp h4
    injection h6 with h6
    subst h6
    exact ((assignable_errstep f s s1 h1).trans_es
      (expr_iter_errstep args s1 s2 h3)).trans_es (add_op_errstep h5)
  | .mk sp (.Access x y), s, s', h => by
    simp only [Compiler.assignable] at h
    obtain ⟨s1, h1, h2⟩ := Option.bind_eq_some.mp h
    exact (assignable_errstep x s s1 h1).trans_es (assignable_errstep y s1 s' h2)
  | .mk sp (.Index x b), s, s', h => by
    simp only [Compiler.assignable] at h
    obtain ⟨s1, h1, h2⟩ := Option.bind_eq_some.mp h
    obtain ⟨s2, h3, h4⟩ := Option.bind_eq_some.mp h2
    obtain ⟨r, h5, h6⟩ := Option.bind_eq_some.mp h4
    injection h6 with h6
    subst h6
    exact ((assignable_errstep x s s1 h1).trans_es
      (expression_errstep b s1 s2 h3)).trans_es (add_op_errstep h5)
termination_by a => sizeOf a
decreasing_by all_goals (simp_wf <;> omega)

theorem un_op_errstep : ∀ (a : Expression) (ops : List Op) (sp : Span)
    (s s' : Compiler), Compiler.un_op a ops sp s = some s' → ErrStep s s'
  | a, ops, sp, s, s', h => by
    simp only [Compiler.un_op] at h
    obtain ⟨s1, h1, h2⟩ := Option.bind_eq_some.mp h
    exact (expression_errstep a s s1 h1).trans_es (add_op_list_errstep h2)
termination_by a => sizeOf a + 1
decreasing_by all_goals (simp_wf <;> omega)

theorem bin_op_errstep : ∀ (a b : Expression) (ops : List Op) (sp : Span)
    (s s' : Compiler), Compiler.bin_op a b ops sp s = some s' → ErrStep s s'
  | a, b, ops, sp, s, s', h => by
    simp only [Compiler.bin_op] at h
    obtain ⟨s1, h1, h2⟩ := Option.bind_eq_some.mp h
    obtain ⟨s2, h3, h4⟩ := Option.bind_eq_some.mp h2
    exact ((expression_errstep a s s1 h1).trans_es
      (expression_errstep b s1 s2 h3)).trans_es (add_op_list_errstep h4)
termination_by a b => sizeOf a + sizeOf b + 1
decreasing_by all_goals (simp_wf <;> omega)

theorem expression_errstep : ∀ (e : Expression) (s s' : Compiler),
    Compiler.expression e s = some s' → ErrStep s s'
  | .mk sp (.Get a), s, s', h => by
    simp only [Compiler.expression] at h
    exact assignable_errstep a s s' h
  | .mk sp (.Add a b), s, s', h => by
    simp only [Compiler.expression] at h
    exact bin_op_errstep a b _ sp s s' h
  | .mk sp (.Sub a b), s, s', h => by
    simp only [Compiler.expression] at h
    exact bin_op_errstep a b _ sp s s' h
  | .mk sp (.Mul a b), s, s', h => by
    simp only [Compiler.expression] at h
    exact bin_op_errstep a b _ sp s s' h
  | .mk sp (.Div a b), s, s', h => by
    simp only [Compiler.expression] at h
    exact bin_op_errstep a b _ sp s s' h
  | .mk sp (.Eq a b), s, s', h => by
    simp only [Compiler.expression] at h
    exact bin_op_errstep a b _ sp s s' h
  | .mk sp (.Neq a b), s, s', h => by
    simp only [Compiler.expression] at h
    exact bin_op_errstep a b _ sp s s' h
  | .mk sp (.Gt a b), s, s', h => by
    simp only [Compiler.expression] at h
    exact bin_op_errstep a b _ sp s s' h
  | .mk sp (.Gteq a b), s, s', h => by
    simp only [Compiler.expression] at h
    exact bin_op_errstep a b _ sp s s' h
  | .mk sp (.Lt a b), s, s', h => by
    simp only [Compiler.expression] at h
    exact bin_op_errstep a b _ sp s s' h
  | .mk sp (.Lteq a b), s, s', h => by
    simp only [Compiler.expression] at h
    exact bin_op_errstep a b _ sp s s' h
  | .mk sp (.AssertEq a b), s, s', h => by
    simp only [Compiler.expression] at h
    exact bin_op_errstep a b _ sp s s' h
  | .mk sp (.Neg a), s, s', h => by
    simp only [Compiler.expression] at h
    exact un_op_errstep a _ sp s s' h
  | .mk sp (.In a b), s, s', h => by
    simp only [Compiler.expression] at h
    exact bin_op_errstep a b _ sp s s' h
  | .mk sp (.And a b), s, s', h => by
    simp only [Compiler.expression] at h
    exact bin_op_errstep a b _ sp s s' h
  | .mk sp (.Or a b), s, s', h => by
    simp only [Compiler.expression] at h
    exact bin_op_errstep a b _ sp s s' h
  | .mk sp (.Not a), s, s', h => by
    simp only [Compiler.expression] at h
    exact un_op_errstep a _ sp s s' h
  | .mk sp (.Tuple xs), s, s', h => by
    simp only [Compiler.expression] at h
    obtain ⟨s1, h1, h2⟩ := Option.bind_eq_some.mp h
    obtain ⟨r, h3, h4⟩ := Option.bind_eq_some.mp h2
    injection h4 with h4
    subst h4
    exact (expr_iter_errstep xs s s1 h1).trans_es (add_op_errstep h3)
  | .mk sp (.List xs), s, s', h => by
    simp only [Compiler.expression] at h
    obtain ⟨s1, h1, h2⟩ := Option.bind_eq_some.mp h
    obtain ⟨r, h3, h4⟩ := Option.bind_eq_some.mp h2
    injection h4 with h4
    subst h4
    exact (expr_iter_errstep xs s s1 h1).trans_es (add_op_errstep h3)
  | .mk sp (.Set xs), s, s', h => by
    simp only [Compiler.expression] at h
    obtain ⟨s1, h1, h2⟩ := Option.bind_eq_some.mp h
    obtain ⟨r, h3, h4⟩ := Option.bind_eq_some.mp h2
    injection h4 with h4
    subst h4
    exact (expr_iter_errstep xs s s1 h1).trans_es (add_op_errstep h3)
  | .mk sp (.Dict xs), s, s', h => by
    simp only [Compiler.expression] at h
    obtain ⟨s1, h1, h2⟩ := Option.bind_eq_some.mp h
    obtain ⟨r, h3, h4⟩ := Option.bind_eq_some.mp h2
    injection h4 with h4
    subst h4
    exact (expr_iter_errstep xs s s1 h1).trans_es (add_op_errstep h3)
  | .mk sp (.Float a), s, s', h => by
    simp only [Compiler.expression] at h
    exact push_errstep h
  | .mk sp (.Bool a), s, s', h => by
    simp only [Compiler.expression] at h
    exact push_errstep h
  | .mk sp (.Int a), s, s', h => by
    simp only [Compiler.expression] at h
    exact push_errstep h
  | .mk sp (.Str a), s, s', h => by
    simp only [Compiler.expression] at h
    exact push_errstep h
  | .mk sp .Nil, s, s', h => by
    simp only [Compiler.expression] at h
    exact push_errstep h
  | .mk sp (.Function name params ret body), s, s', h => by
    simp only [Compiler.expression] at h
    exact absurd h (by simp)
  | .mk sp (.Instance blob fields), s, s', h => by
    simp only [Compiler.expression] at h
    exact absurd h (by simp)
termination_by e => sizeOf e
decreasing_by all_goals (simp_wf <;> omega)

theorem expr_iter_errstep : ∀ (l : ExprList) (s s' : Compiler),
    Compiler.expr_iter l s = some s' → ErrStep s s'
  | .nil, s, s', h => by
    simp only [Compiler.expr_iter] at h
    injection h with h
    subst h
    exact ErrStep.refl_es s
  | .cons e tl, s, s', h => by
    simp only [Compiler.expr_iter] at h
    obtain ⟨s1, h1, h2⟩ := Option.bind_eq_some.mp h
    exact (expression_errstep e s s1 h1).trans_es (expr_iter_errstep tl s1 s' h2)
termination_by l => sizeOf l
decreasing_by all_goals (simp_wf <;> omega)
end

theorem statement_errstep (st : Statement) (s s' : Compiler)
    (h : Compiler.statement st s = some s') : ErrStep s s' := by
  cases st with
  | mk sp k =>
    cases k with
    | EmptyStatement =>
      simp only [Compiler.statement] at h
      injection h with h
      subst h
      exact ErrStep.refl_es s
    | Print value =>
      simp only [Compiler.statement] at h
      obtain ⟨s1, h1, h2⟩ := Option.bind_eq_some.mp h
      obtain ⟨r, h3, h4⟩ := Option.bind_eq_some.mp h2
      injection h4 with h4
      subst h4
      exact (expression_errstep value s s1 h1).trans_es (add_op_errstep h3)
    | Definition ident kind ty value =>
      simp only [Compiler.statement] at h
      obtain ⟨s1, h1, h2⟩ := Option.bind_eq_some.mp h
      injection h2 with h2
      subst h2
      exact expression_errstep value s s1 h1
    | Assignment ak target value =>
      cases target with
      | mk tsp tk =>
        cases tk with
        | Read ident =>
          simp only [Compiler.statement] at h
          obtain ⟨u, hu1, hr1⟩ := Option.bind_eq_some.mp h
          obtain ⟨y, hy1, hy2⟩ := Option.bind_eq_some.mp hr1
          exact ((expression_errstep value s u hu1).trans_es
            (set_errstep hy1)).trans_es (expression_errstep value y s' hy2)
        | Call cf cargs =>
          simp only [Compiler.statement] at h
          obtain ⟨y, hy1, hy2⟩ := Option.bind_eq_some.mp h
          exact (compile_error_errstep hy1).trans_es
            (expression_errstep value y s' hy2)
        | Access x y =>
          simp only [Compiler.statement] at h
          exact absurd h (by simp)
        | Index x b =>
          simp only [Compiler.statement] at h
          obtain ⟨u1, hu1, hr1⟩ := Option.bind_eq_some.mp h
          obtain ⟨u2, hu2, hr2⟩ := Option.bind_eq_some.mp hr1
          obtain ⟨u3, hu3, hr3⟩ := Option.bind_eq_some.mp hr2
          obtain ⟨r, hu4, hr4⟩ := Option.bind_eq_some.mp hr3
          obtain ⟨y, hy1, hy2⟩ := Option.bind_eq_some.mp hr4
          injection hy1 with hy1
          subst hy1
          exact ((((assignable_errstep x s u1 hu1).trans_es
            (expression_errstep b u1 u2 hu2)).trans_es
            (expression_errstep value u2 u3 hu3)).trans_es
            (add_op_errstep hu4)).trans_es
            (expression_errstep value r.2 s' hy2)
    | StatementExpression value =>
      simp only [Compiler.statement] at h
      exact expression_errstep value s s' h
    | Use file =>
      simp only [Compiler.statement] at h
      injection h with h
      subst h
      exact ErrStep.refl_es s
    | Block stmts =>
      simp only [Compiler.statement] at h
      exact absurd h (by simp)

theorem statements_iter_errstep (l : List Statement) :
    ∀ (s s' : Compiler), Compiler.statements_iter l s = some s' →
    ErrStep s s' := by
  induction l with
  | nil =>
    intro s s' h
    simp only [Compiler.statements_iter] at h
    injection h with h
    subst h
    exact ErrStep.refl_es s
  | cons st tl ih =>
    intro s s' h
    simp only [Compiler.statements_iter] at h
    obtain ⟨s1, h1, h2⟩ := Option.bind_eq_some.mp h
    exact (statement_errstep st s s1 h1).trans_es (ih s1 s' h2)

theorem extract_globals_modules_errstep (l : List (StrT × SynModule)) :
    ∀ (s s' : Compiler), Compiler.extract_globals_modules l s = some s' →
    ErrStep s s' := by
  induction l with
  | nil =>
    intro s s' h
    simp only [Compiler.extract_globals_modules] at h
    injection h with h
    subst h
    exact ErrStep.refl_es s
  | cons p tl ih =>
    intro s s' h
    obtain ⟨path, m⟩ := p
    simp only [Compiler.extract_globals_modules] at h
    cases ha : alookup s.path_to_namespace_id path with
    | none =>
      rw [ha] at h
      simp only at h
      refine ErrStep.trans_es ?_ (ih _ _ h)
      exact ErrStep.of_eq rfl rfl
    | some z =>
      rw [ha] at h
      simp only at h
      obtain ⟨s1, h1, h2⟩ := Option.bind_eq_some.mp h
      exact (compile_error_errstep h1).trans_es (ih s1 s' h2)

theorem extract_globals_stmts_errstep (l : List Statement) :
    ∀ (slot globals : Nat) (s : Compiler) (r : Nat × Compiler),
    Compiler.extract_globals_stmts l slot globals s = some r →
    ErrStep s r.2 := by
  induction l with
  | nil =>
    intro slot globals s r h
    simp only [Compiler.extract_globals_stmts] at h
    injection h with h
    subst h
    exact ErrStep.refl_es s
  | cons st tl ih =>
    intro slot globals s r h
    cases st with
    | mk sp k =>
      cases k with
      | Use file =>
        simp only [Compiler.extract_globals_stmts] at h
        cases ha : alookup s.path_to_namespace_id file.name with
        | none => rw [ha] at h; simp at h
        | some other =>
          rw [ha] at h
          simp only at h
          cases hn : s.namespaces.get? slot with
          | none => rw [hn] at h; simp at h
          | some ns =>
            rw [hn] at h
            simp only at h
            cases hl : alookup ns file.name with
            | none =>
              rw [hl] at h
              simp only at h
              refine ErrStep.trans_es ?_ (ih _ _ _ _ h)
              exact ErrStep.of_eq rfl rfl
            | some z =>
              rw [hl] at h
              simp only at h
              obtain ⟨s1, h1, h2⟩ := Option.bind_eq_some.mp h
              obtain ⟨u, hu, he⟩ := Option.bind_eq_some.mp h1
              injection he with he
              subst he
              exact (compile_error_errstep hu).trans_es (ih _ _ _ _ h2)
      | Definition ident kind ty value =>
        simp only [Compiler.extract_globals_stmts] at h
        cases hn : s.namespaces.get? slot with
        | none => rw [hn] at h; simp at h
        | some ns =>
          rw [hn] at h
          simp only at h
          cases hl : alookup ns ident.name with
          | none =>
            rw [hl] at h
            simp only at h
            refine ErrStep.trans_es ?_ (ih _ _ _ _ h)
            exact ErrStep.of_eq rfl rfl
          | some z =>
            rw [hl] at h
            simp only at h
            obtain ⟨s1, h1, h2⟩ := Option.bind_eq_some.mp h
            obtain ⟨u, hu, he⟩ := Option.bind_eq_some.mp h1
            injection he with he
            subst he
            exact (compile_error_errstep hu).trans_es (ih _ _ _ _ h2)
      | EmptyStatement =>
        simp only [Compiler.extract_globals_stmts] at h
        exact ih _ _ _ _ h
      | Print value =>
        simp only [Compiler.extract_globals_stmts] at h
        exact ih _ _ _ _ h
      | Assignment ak target value =>
        simp only [Compiler.extract_globals_stmts] at h
        exact ih _ _ _ _ h
      | StatementExpression value =>
        simp only [Compiler.extract_globals_stmts] at h
        exact ih _ _ _ _ h
      | Block stmts =>
        simp only [Compiler.extract_globals_stmts] at h
        exact ih _ _ _ _ h

theorem extract_globals_pass2_errstep (l : List (StrT × SynModule)) :
    ∀ (globals : Nat) (s : Compiler) (r : Nat × Compiler),
    Compiler.extract_globals_pass2 l globals s = some r →
    ErrStep s r.2 := by
  induction l with
  | nil =>
    intro globals s r h
    simp only [Compiler.extract_globals_pass2] at h
    injection h with h
    subst h
    exact ErrStep.refl_es s
  | cons p tl ih =>
    intro globals s r h
    obtain ⟨path, m⟩ := p
    simp only [Compiler.extract_globals_pass2] at h
    cases ha : alookup s.path_to_namespace_id path with
    | none => rw [ha] at h; simp at h
    | some slot =>
      rw [ha] at h
      simp only at h
      obtain ⟨r1, h1, h2⟩ := Option.bind_eq_some.mp h
      exact (extract_globals_stmts_errstep m.statements slot globals s r1
        h1).trans_es (ih _ _ _ h2)

theorem emit_repeated_errstep (n : Nat) :
    ∀ (op : Op) (s s' : Compiler),
    Compiler.emit_repeated n op s = some s' → ErrStep s s' := by
  induction n with
  | zero =>
    intro op s s' h
    simp only [Compiler.emit_repeated] at h
    injection h with h
    subst h
    exact ErrStep.refl_es s
  | succ m ih =>
    intro op s s' h
    simp only [Compiler.emit_repeated] at h
    obtain ⟨r, h1, h2⟩ := Option.bind_eq_some.mp h
    exact (add_op_errstep h1).trans_es (ih op r.2 s' h2)

theorem extract_globals_errstep (tree : Prog) (s : Compiler)
    (r : Nat × Compiler) (h : Compiler.extract_globals tree s = some r) :
    ErrStep s r.2 := by
  unfold Compiler.extract_globals at h
  obtain ⟨s1, h1, h2⟩ := Option.bind_eq_some.mp h
  exact (extract_globals_modules_errstep tree.modules s s1 h1).trans_es
    (extract_globals_pass2_errstep tree.modules 0 s1 r h2)

theorem compile_error_singleton (tree : Prog)
    (res : Except (List Error) CProg) (l : List Error)
    (h : compileProg tree = some res) (hres : res = .error l) :
    ∃ f ln m, l = [Error.CompileError f ln m] := by
  unfold compileProg Compiler.compile at h
  cases hm : tree.modules with
  | nil => rw [hm] at h; simp at h
  | cons p tl =>
    obtain ⟨file0, m0⟩ := p
    rw [hm] at h
    simp only at h
    obtain ⟨r, h1, h2⟩ := Option.bind_eq_some.mp h
    obtain ⟨rc, h3, h4⟩ := Option.bind_eq_some.mp h2
    obtain ⟨s5, h5, h6⟩ := Option.bind_eq_some.mp h4
    obtain ⟨s6, h7, h8⟩ := Option.bind_eq_some.mp h6
    obtain ⟨rc2, h9, h10⟩ := Option.bind_eq_some.mp h8
    obtain ⟨r2, h11, h12⟩ := Option.bind_eq_some.mp h10
    obtain ⟨r3, h13, h14⟩ := Option.bind_eq_some.mp h12
    injection h14 with h14
    have step : ErrStep
        { Compiler.new with blocks :=
            Compiler.new.blocks ++ [Block.new "/preamble/" file0] } r3.2 :=
      ((((((extract_globals_errstep tree _ r h1).trans_es
        (constant_errstep (show _ = some (rc.1, rc.2) by rw [← h3]))).trans_es
        (emit_repeated_errstep r.1 rc.1 rc.2 s5 h5)).trans_es
        (statements_iter_errstep m0.statements s5 s6 h7)).trans_es
        (constant_errstep (show _ = some (rc2.1, rc2.2) by rw [← h9]))).trans_es
        (add_op_errstep h11)).trans_es
        (add_op_errstep h13)
    have hinv : ErrInv r3.2 := step.2.2 (Or.inl ⟨rfl, rfl⟩)
    rw [hres] at h14
    by_cases hemp : r3.2.errors.isEmpty
    · rw [if_pos hemp] at h14
      exact absurd h14 (by simp)
    · rw [if_neg hemp] at h14
      injection h14 with h14
      cases hinv with
      | inl hi => exact absurd (by simp [hi.2]) hemp
      | inr hi =>
        obtain ⟨_, f, ln, m, he⟩ := hi
        exact ⟨f, ln, m, by rw [← h14, he]⟩

/-- C1: the compiler's error policy.  (1) Once the sticky panic flag
is set, `compile_error!` drops every subsequent error and changes
nothing.  (2) The first recorded error sets the flag and appends
exactly one `CompileError` (with the current file, line and message).
(3) Nothing in a compile ever clears the flag or removes errors, so
every failing compile returns an error list containing exactly one
`CompileError` — the first one recorded. -/
theorem claim_C1_sticky_single_error :
    (∀ (s : Compiler) (line : Nat) (msg : StrT),
      s.panic = true → s.compile_error line msg = some s)
  ∧ (∀ (s : Compiler) (line : Nat) (msg : StrT) (s' : Compiler),
      s.panic = false → s.compile_error line msg = some s' →
      s'.panic = true ∧ ∃ f, s.current_file = some f ∧
        s'.errors = s.errors ++ [.CompileError f line (some msg)])
  ∧ (∀ (tree : Prog) (res : Except (List Error) CProg) (l : List Error),
      compileProg tree = some res → res = .error l →
      ∃ f ln m, l = [Error.CompileError f ln m]) := by
  refine ⟨?_, ?_, compile_error_singleton⟩
  · intro s line msg hp
    unfold Compiler.compile_error
    rw [if_pos hp]
  · intro s line msg s' hp h
    unfold Compiler.compile_error at h
    rw [if_neg (by rw [hp]; simp)] at h
    cases hf : s.current_file with
    | none => rw [hf] at h; simp at h
    | some f =>
      rw [hf] at h
      injection h with h
      subst h
      exact ⟨rfl, f, rfl, rfl⟩

/-- A program whose single statement assigns to the undefined
variable `x` — its compile fails. -/
def badProg : Prog :=
  { modules := [("main",
    { span := { line := 1 },
      statements := [.mk { line := 1 } (.Assignment .Plain
        (.mk { line := 1 } (.Read { span := { line := 1 }, name := "x" }))
        (.mk { line := 1 } (.Int 5)))] })] }

/-- Witness for C1: compiling `badProg` fails with exactly one
`CompileError`, obtained by the claim theorem. -/
theorem claim_C1_sticky_single_error_witness :
    (compileProg badProg = some (.error [.CompileError "main" 1
      (some "No active variable called x could be found")]))
  ∧ ∃ f ln m, [Error.CompileError "main" 1
      (some "No active variable called x could be found")] =
      [Error.CompileError f ln m] := by
  have hcomp : compileProg badProg = some (.error [.CompileError "main" 1
      (some "No active variable called x could be found")]) := by
    simp [compileProg, Compiler.compile, Compiler.extract_globals,
      Compiler.extract_globals_modules, Compiler.extract_globals_pass2,
      Compiler.extract_globals_stmts, Compiler.new, badProg, alookup,
      List.find?, Compiler.constant, hashValue, lookupValueSlot,
      Compiler.emit_repeated, Compiler.module, Compiler.statements_iter,
      Compiler.statement, Compiler.expression, Compiler.push,
      Compiler.add_op, Block.new, Block.add, Compiler.set,
      Compiler.compile_error, Compiler.current_file, veq]
  exact ⟨hcomp,
    claim_C1_sticky_single_error.2.2 badProg _ _ hcomp rfl⟩
